import Mathlib

/-!
Verification of the pyENDF6 format decoder (`ENDF6.py`).

The decoder works on Python strings; we model a Python string as a
`List Char` and translate each operation of the source file
(`read_float`, `read_line`, `read_table`, `find_section`,
`get_num_subsections`, `parse_header`, `find_yields`) into an
executable Lean function over this representation.  Python behaviours
that matter here are modelled explicitly:

* string slicing `s[a:b]` clamps out-of-range bounds (`pySliceList`,
  `pySlice`);
* list indexing `l[i]` supports negative indices and raises
  `IndexError` out of range (`pyGet`, an `Option`);
* `str.strip` removes leading/trailing whitespace (`pyStrip`);
* `float(...)` parsing (`pyFloat`, an `Option`; `None` models the
  Python `ValueError`);
* `int(...)` on a float truncates towards zero (`pyInt`);
* `dict` assignment overwrites an existing key while preserving
  insertion order (`insertOverwrite`);
* the unbounded `while` loop of `find_yields` is given explicit fuel;
  exhausting the fuel (`FYResult.outOfFuel`) models divergence of the
  source loop;
* `print(...)` followed by `quit()` is modelled as returning a
  distinguished error value.
-/

namespace ENDF6

/-- One physical line of an ENDF tape: the character sequence of the
Python string (without the trailing newline semantics mattering,
since all accesses are by column slice). -/
abbrev Line := List Char

/-- Python string slicing `s[a:b]` for nonnegative bounds: characters
with index `a ≤ i < b`, silently clamped to the string. -/
def pySliceList (l : List Char) (a b : Nat) : List Char :=
  (l.drop a).take (b - a)

/-- Python index normalisation for slices: negative indices count from
the end, and the result is clamped into `[0, len]`. -/
def pyIdx (len : Nat) (i : ℤ) : Nat :=
  if i < 0 then ((len : ℤ) + i).toNat else min i.toNat len

/-- Python list slicing `l[a:b]` with (possibly negative) integer bounds. -/
def pySlice {α : Type} (l : List α) (a b : ℤ) : List α :=
  (l.take (pyIdx l.length b)).drop (pyIdx l.length a)

/-- Python list indexing `l[i]`: negative indices count from the end;
`none` models the `IndexError` raised when `i` is out of range. -/
def pyGet {α : Type} (l : List α) (i : ℤ) : Option α :=
  if 0 ≤ i then l.get? i.toNat
  else if -(l.length : ℤ) ≤ i then l.get? ((l.length : ℤ) + i).toNat
  else none

/-- The characters Python's `str.strip()` removes by default. -/
def isWS (c : Char) : Bool :=
  c.toNat = 32 || c.toNat = 9 || c.toNat = 10 || c.toNat = 11 ||
  c.toNat = 12 || c.toNat = 13

/-- Python `str.strip()`: drop leading and trailing whitespace. -/
def pyStrip (l : List Char) : List Char :=
  ((l.dropWhile isWS).reverse.dropWhile isWS).reverse

/-- ASCII decimal digit test (`0`–`9`), as used by `float(...)`. -/
def isDig (c : Char) : Bool :=
  decide (48 ≤ c.toNat) && decide (c.toNat ≤ 57)

/-- Exponent marker test (`e` or `E`). -/
def isE (c : Char) : Bool := c == 'e' || c == 'E'

/-- Numeric value of an ASCII digit. -/
def digVal (c : Char) : Nat := c.toNat - 48

/-- Value of a digit string read in base 10. -/
def natOfDigits (l : List Char) : Nat :=
  l.foldl (fun a c => 10 * a + digVal c) 0

/-- `10 ^ k` as a rational, for an integer exponent `k`.  (Written via
`mkRat` so that it evaluates by kernel reduction; `qPow10_eq` proves it
equal to the ordinary `zpow`.) -/
def qPow10 (k : ℤ) : ℚ :=
  if 0 ≤ k then mkRat (10 ^ k.toNat) 1 else mkRat 1 (10 ^ (-k).toNat)

/-- Product of rationals, written via `mkRat` so that it evaluates by
kernel reduction; `qMul_eq` proves it equal to `a * b`. -/
def qMul (a b : ℚ) : ℚ := mkRat (a.num * b.num) (a.den * b.den)

/-- Split a character list at the first exponent marker, if any. -/
def splitAtE : List Char → List Char × Option (List Char)
  | [] => ([], none)
  | c :: cs =>
    if isE c then ([], some cs)
    else
      let r := splitAtE cs
      (c :: r.1, r.2)

/-- Parse an unsigned decimal mantissa: `digits`, `digits.`,
`digits.digits` or `.digits` (at least one digit overall), consuming
the whole input.  Exact rational value (the model of the IEEE value
Python would produce). -/
def parseMantissa (cs : List Char) : Option ℚ :=
  match cs.dropWhile isDig with
  | [] =>
    if cs.takeWhile isDig = [] then none
    else some (mkRat (natOfDigits (cs.takeWhile isDig)) 1)
  | '.' :: rest2 =>
    if rest2.dropWhile isDig = [] ∧
        (cs.takeWhile isDig ≠ [] ∨ rest2.takeWhile isDig ≠ [])
    then some (mkRat
      (natOfDigits (cs.takeWhile isDig) * 10 ^ (rest2.takeWhile isDig).length
        + natOfDigits (rest2.takeWhile isDig))
      (10 ^ (rest2.takeWhile isDig).length))
    else none
  | _ => none

/-- Parse the (signed) digit string after an exponent marker. -/
def parseExp (cs : List Char) : Option ℤ :=
  match cs with
  | '+' :: ds => if ds ≠ [] ∧ ds.all isDig = true then some (natOfDigits ds : ℤ) else none
  | '-' :: ds => if ds ≠ [] ∧ ds.all isDig = true then some (-(natOfDigits ds : ℤ)) else none
  | ds => if ds ≠ [] ∧ ds.all isDig = true then some (natOfDigits ds : ℤ) else none

/-- Parse an unsigned float literal (mantissa with optional exponent),
consuming the whole input. -/
def parseUnsignedFull (cs : List Char) : Option ℚ :=
  match splitAtE cs with
  | (m, none) => parseMantissa m
  | (m, some e) =>
    match parseMantissa m, parseExp e with
    | some x, some k => some (qMul x (qPow10 k))
    | _, _ => none

/-- Python `float(s)`: strip whitespace, optional sign, then an
unsigned float literal.  `none` models the `ValueError`. -/
def pyFloat (cs : List Char) : Option ℚ :=
  match pyStrip cs with
  | '+' :: rest => parseUnsignedFull rest
  | '-' :: rest => (parseUnsignedFull rest).map (fun x => -x)
  | rest => parseUnsignedFull rest

/-- Python `s.replace('+', 'e+').replace('-', 'e-')` on a character
list: the first pass rewrites every `+` to `e+`, the second pass then
rewrites every `-` to `e-` (the first pass introduces no `-`). -/
def replace2 (l : List Char) : List Char :=
  (l.flatMap fun x => if x = '+' then ['e', '+'] else [x]).flatMap
    fun x => if x = '-' then ['e', '-'] else [x]

/-- The retry string built by `read_float` on a parse failure:
`v[0] + v[1:].replace('+', 'e+').replace('-', 'e-')` (the leading
character is kept as is so a leading sign is not rewritten). -/
def shorthandFix (v : List Char) : List Char :=
  match v with
  | [] => []
  | c :: rest => c :: replace2 rest

/-- `read_float` of `ENDF6.py`: blank fields are `0.0`; otherwise try
`float(v)`; on failure re-insert the omitted exponent marker and try
again.  `none` models the uncaught `ValueError` of the retry. -/
def read_float (v : List Char) : Option ℚ :=
  if pyStrip v = [] then some 0
  else
    match pyFloat v with
    | some x => some x
    | none => pyFloat (shorthandFix v)

/-- Python `int(x)` on a float: truncation towards zero.  On the exact
rational model this is `num.tdiv den`. -/
def pyInt (q : ℚ) : ℤ := q.num.tdiv (q.den : ℤ)

/-- Python `int(s)` on a string: strip whitespace, optional sign,
nonempty digit string; `none` models the `ValueError`. -/
def pyIntStr (cs : List Char) : Option ℤ :=
  match pyStrip cs with
  | '+' :: ds => if ds ≠ [] ∧ ds.all isDig = true then some (natOfDigits ds : ℤ) else none
  | '-' :: ds => if ds ≠ [] ∧ ds.all isDig = true then some (-(natOfDigits ds : ℤ)) else none
  | ds => if ds ≠ [] ∧ ds.all isDig = true then some (natOfDigits ds : ℤ) else none

/-- Python `str(n)` for an integer. -/
def intToStr (n : ℤ) : List Char :=
  if n < 0 then '-' :: Nat.toDigits 10 n.natAbs else Nat.toDigits 10 n.toNat

/-- Python `'%Ns' % v`: right-justify in a field of width `w`
(unchanged if already at least that wide). -/
def rjust (w : Nat) (s : List Char) : List Char :=
  List.replicate (w - s.length) ' ' ++ s

/-- The five-character comparison string `'%2s%3s' % (MF, MT)` used by
`find_section`. -/
def fmtTag (mf mt : ℤ) : List Char :=
  rjust 2 (intToStr mf) ++ rjust 3 (intToStr mt)

/-- Python `list.index(x)`: index of the first occurrence; `none`
models the `ValueError` when `x` is absent. -/
def pyIndex {α : Type} [DecidableEq α] (x : α) : List α → Option ℕ
  | [] => none
  | a :: l => if a = x then some 0 else (pyIndex x l).map (· + 1)

/-- `read_line` of `ENDF6.py`: the six 11-character data fields of a
line, each decoded by `read_float`.  (Python slicing pads nothing: a
short line simply yields short or empty fields.) -/
def read_line (l : Line) : Option (ℚ × ℚ × ℚ × ℚ × ℚ × ℚ) := do
  let a ← read_float (pySliceList l 0 11)
  let b ← read_float (pySliceList l 11 22)
  let c ← read_float (pySliceList l 22 33)
  let d ← read_float (pySliceList l 33 44)
  let e ← read_float (pySliceList l 44 55)
  let f ← read_float (pySliceList l 55 66)
  pure (a, b, c, d, e, f)

instance : DecidableEq (ℚ × ℚ × ℚ × ℚ × ℚ × ℚ) := inferInstance

/-- The `for l in lines[3:]` loop of `read_table`, decoding each data
line in order; any decode failure propagates (an uncaught exception in
Python). -/
def mapOpt {α β : Type} (f : α → Option β) : List α → Option (List β)
  | [] => some []
  | a :: l => do
    let b ← f a
    let bs ← mapOpt f l
    pure (b :: bs)

/-- `read_table` of `ENDF6.py`: read NR/NP from fields 4 and 5 of line
index 1, collect three `(x, y)` pairs from each line from index 3 on,
and truncate both sequences to NP entries (`x[:nP]`, `y[:nP]`).
`none` models the uncaught Python exceptions (`IndexError` on a range
shorter than 2 lines, decode `ValueError`s). -/
def read_table (lines : List Line) : Option (List ℚ × List ℚ) := do
  let l1 ← lines.get? 1
  let f ← read_line l1
  let _nS := pyInt f.2.2.2.2.1   -- number of interpolation sections (unused)
  let nP := pyInt f.2.2.2.2.2    -- number of data points
  let fs ← mapOpt read_line (lines.drop 3)
  let x := fs.flatMap fun g => [g.1, g.2.2.1, g.2.2.2.2.1]
  let y := fs.flatMap fun g => [g.2.1, g.2.2.2.1, g.2.2.2.2.2]
  pure (pySlice x 0 nP, pySlice y 0 nP)

/-- `find_section` of `ENDF6.py`: compare `l[70:75]` of every line
against `'%2s%3s' % (MF, MT)`; slice from the first to one past the
last occurrence.  `none` models the `ValueError` of `list.index` when
the tag never occurs. -/
def find_section (lines : List Line) (mf mt : ℤ) : Option (List Line) :=
  let v := lines.map (fun l => pySliceList l 70 75)
  let n := v.length
  let cmpstr := fmtTag mf mt
  match pyIndex cmpstr v, pyIndex cmpstr v.reverse with
  | some i0, some i1r => some (pySlice lines (i0 : ℤ) ((n - i1r : ℕ) : ℤ))
  | _, _ => none

/-- `get_num_subsections` of `ENDF6.py`: the 5th field of the first
line, as an integer. -/
def get_num_subsections (lines : List Line) : Option ℤ := do
  let l ← lines.get? 0
  let values ← read_line l
  pure (pyInt values.2.2.2.2.1)

/-- `parse_header` of `ENDF6.py`: the six fields of a line, all but
the second truncated to integers. -/
def parse_header (l : Line) : Option (ℤ × ℚ × ℤ × ℤ × ℤ × ℤ) := do
  let (a, b, c, d, e, f) ← read_line l
  pure (pyInt a, b, pyInt c, pyInt d, pyInt e, pyInt f)

/-- `int(np.ceil(NP / 3.0))`: the number of data lines a subsection
with `np` points occupies (three pairs per line), i.e. `⌈np / 3⌉`. -/
def dataLinesOf (np : ℤ) : ℤ := -((-np).fdiv 3)

/-- The dictionary built by `find_yields`, modelled as its insertion
order: Python `dict` assignment overwrites the value of an existing
key in place and appends a new key at the end. -/
abbrev YieldDict := List (List Char × List Line)

/-- Python `d[key] = v` on the insertion-order model of a `dict`. -/
def insertOverwrite (k : List Char) (v : List Line) : YieldDict → YieldDict
  | [] => [(k, v)]
  | (k', v') :: rest =>
    if k' = k then (k, v) :: rest else (k', v') :: insertOverwrite k v rest

/-- Python `d.get(key)`. -/
def lookupDict (k : List Char) : YieldDict → Option (List Line)
  | [] => none
  | (k', v') :: rest => if k' = k then some v' else lookupDict k rest

/-- How a run of `find_yields` can end in the model. -/
inductive YieldError
  /-- `find_section` raised `ValueError`: no MF6/MT5 line. -/
  | notFound
  /-- An uncaught decode exception (`ValueError` of `float`/`int`,
  or an `IndexError`). -/
  | malformed
  /-- The `NR > 1` branch: the source prints an error message and
  calls `quit()`; modelled as this error value. -/
  | unsupportedInterpolation
  /-- The `LAW > 0` branch: the source prints an error message and
  calls `quit()`; modelled as this error value. -/
  | unsupportedAngularData (law : ℤ)
deriving DecidableEq

/-- Result of `find_yields`: the whole section when it declares no
subsections, a product dictionary otherwise, an error, or `outOfFuel`
when the `while` loop has not finished within the given fuel
(modelling divergence). -/
inductive FYResult
  | whole (ls : List Line)
  | dict (d : YieldDict)
  | err (e : YieldError)
  | outOfFuel
deriving DecidableEq

/-- The `while line_num <= len(lines)` loop of `find_yields`.
`line_num` is the 1-based cursor of the source; each iteration parses
the TAB1 header at the cursor, checks `NR > 1` and `LAW > 0`, slices
`data_lines + 2` lines, stores them (prefixed with the saved section
header line) under the product key, and advances the cursor by
`data_lines + 2`. -/
def splitLoop (lines : List Line) (head_line : Line) :
    ℕ → ℤ → YieldDict → FYResult
  | 0, line_num, acc =>
    if line_num ≤ (lines.length : ℤ) then .outOfFuel else .dict acc
  | fuel + 1, line_num, acc =>
    if line_num ≤ (lines.length : ℤ) then
      match pyGet lines (line_num - 1) with
      | none => .err .malformed
      | some l =>
        match parse_header l with
        | none => .err .malformed
        | some (ZAP, _AWR, LIP, LAW, NR, NP) =>
          if 1 < NR then .err .unsupportedInterpolation
          else if 0 < LAW then .err (.unsupportedAngularData LAW)
          else
            let data_lines := dataLinesOf NP
            let yield_section := pySlice lines (line_num - 1) (line_num - 1 + data_lines + 2)
            let key := intToStr ZAP ++ (if 0 < LIP then ['m'] else [])
            splitLoop lines head_line fuel (line_num + data_lines + 2)
              (insertOverwrite key (head_line :: yield_section) acc)
    else .dict acc

/-- `find_yields` of `ENDF6.py`: locate the MF6/MT5 section; return it
whole when it declares no subsections; otherwise split it into
per-product blocks with the cursor loop, saving the section's first
line (`head_line = lines[0]`, the cursor starting at line number 2). -/
def find_yields (lines : List Line) (fuel : ℕ) : FYResult :=
  match find_section lines 6 5 with
  | none => .err .notFound
  | some sec =>
    match get_num_subsections sec with
    | none => .err .malformed
    | some n =>
      if n = 0 then .whole sec
      else
        match pyGet sec 0 with
        | none => .err .malformed
        | some head_line => splitLoop sec head_line fuel 2 []

/-- A diverging run of `find_yields` in the fuelled model: no amount
of fuel makes the cursor loop finish. -/
def divergesOnAllFuel (lines : List Line) : Prop :=
  ∀ fuel : ℕ, find_yields lines fuel = FYResult.outOfFuel

/-- Tag decoding in the sense of `list_content`: `int(l[70:72])` and
`int(l[72:75])` — the (MF, MT) pair a line's tag columns denote. -/
def decodeTag (l : Line) : Option (ℤ × ℤ) := do
  let mf ← pyIntStr (pySliceList l 70 72)
  let mt ← pyIntStr (pySliceList l 72 75)
  pure (mf, mt)

/-- Whether the line at index `i` carries the `(MF, MT)` comparison
tag `find_section` searches for. -/
def matchAt (lines : List Line) (mf mt : ℤ) (i : ℕ) : Bool :=
  match lines.get? i with
  | some l => pySliceList l 70 75 == fmtTag mf mt
  | none => false

/-- A well-formed yield subsection block, as the cursor loop consumes
it: a TAB1 header line (parsable, one interpolation region at most —
`NR ≤ 1` —, no angular law — `LAW ≤ 0` —, a nonnegative point count)
followed by exactly `ceil(NP/3) + 1` further lines. -/
def wfBlock (b : List Line) : Bool :=
  match b with
  | [] => false
  | hdr :: _ =>
    match parse_header hdr with
    | none => false
    | some (_, _, _, LAW, NR, NP) =>
      decide (NR ≤ 1) && decide (LAW ≤ 0) && decide (0 ≤ NP) &&
        (b.length == (dataLinesOf NP).toNat + 2)

/-- The dictionary key a subsection block is stored under: the product
ZAP identifier, with `m` appended for an isomeric state (`LIP > 0`). -/
def blockKey (b : List Line) : List Char :=
  match b with
  | [] => []
  | hdr :: _ =>
    match parse_header hdr with
    | none => []
    | some (ZAP, _, LIP, _, _, _) => intToStr ZAP ++ (if 0 < LIP then ['m'] else [])

/-! Concrete 80-column test lines (used by the closed witness and
counterexample theorems below).  Naming: `tN*`/`wN*` lines belong to
the concrete tape exercising claim N. -/

def t7l0 : Line := "                                                                  9999 6  5    1".toList

def t5l0 : Line := "                                                    1.0           9999 6  5    1".toList

def t5l1 : Line := "     41091.     90.122                                         3.09999 6  5    1".toList

def t5l2 : Line := "                                                    1.0        3.09999 6  5    1".toList

def t5l3 : Line := "        1.0        0.5        2.0        0.6        3.0        0.79999 6  5    1".toList

def t5b0 : Line := "                                                    1.0           9999 6  5    1".toList

def t5b1 : Line := "     41091.                                         2.0        3.09999 6  5    1".toList

def t5c1 : Line := "     41091.                              1.0        1.0        3.09999 6  5    1".toList

def t6l0 : Line := "                                                    1.0           9999 6  5    1".toList

def t6l1 : Line := "     41091.                                                   -6.09999 6  5    1".toList

def w6l0 : Line := "                                                    1.0           9999 6  5    1".toList

def w6l1 : Line := "     41091.                                         1.0        3.09999 6  5    1".toList

def w6l2 : Line := "                                                    1.0        3.09999 6  5    1".toList

def w6l3 : Line := "        1.0        0.5        2.0        0.6        3.0        0.79999 6  5    1".toList

def t1l0 : Line := "                                                    2.0           9999 6  5    1".toList

def t1l1 : Line := "     41091.                                         1.0        3.09999 6  5    1".toList

def t1l2 : Line := "                                                    1.0        3.09999 6  5    1".toList

def t1l3 : Line := "        1.0        0.5        2.0        0.6        3.0        0.79999 6  5    1".toList

def t1l4 : Line := "     41091.                                         1.0        3.09999 6  5    1".toList

def t1l5 : Line := "                                                    1.0        3.09999 6  5    1".toList

def t1l6 : Line := "        1.0        0.8        2.0        0.9        3.0        1.09999 6  5    1".toList

def w1l0 : Line := "                                                    2.0           9999 6  5    1".toList

def w1l1 : Line := "     41091.                                         1.0        3.09999 6  5    1".toList

def w1l2 : Line := "                                                    1.0        3.09999 6  5    1".toList

def w1l3 : Line := "        1.0        0.5        2.0        0.6        3.0        0.79999 6  5    1".toList

def w1l4 : Line := "     41091.                   1.0                   1.0        3.09999 6  5    1".toList

def w1l5 : Line := "                                                    1.0        3.09999 6  5    1".toList

def w1l6 : Line := "        1.0        0.8        2.0        0.9        3.0        1.09999 6  5    1".toList

def t3l0 : Line := "                                                                  9999 3  1    1".toList

def t3l1 : Line := "                                                                  9999 3  5    1".toList

def t3l2 : Line := "        1.0                                                       9999 3  5    2".toList

def t3l3 : Line := "                                                                  9999 3 16    1".toList

def t2l0 : Line := "                                                                  9999 3  5    1".toList

def t2l1 : Line := "                                                               4.09999 3  5    1".toList

def t2l2 : Line := "                                                                  9999 3  5    1".toList

def t2l3 : Line := "        1.0        0.1        2.0        0.2        3.0        0.39999 3  5    1".toList

def t2l4 : Line := "        4.0        0.4        5.0        0.5        6.0        0.69999 3  5    1".toList


/-- Sign factor denoted by an optional leading sign character. -/
def signVal (s0 : List Char) : ℚ := if s0 = ['-'] then -1 else 1

/-- Exponent denoted by a sign character and a digit string. -/
def expVal (es : Char) (d : List Char) : ℤ :=
  if es = '-' then -(natOfDigits d : ℤ) else (natOfDigits d : ℤ)

end ENDF6

namespace ENDF6

/-! ### Helper lemmas: whitespace padding -/

lemma isWS_space : isWS ' ' = true := rfl

lemma dropWhile_replicate_space (k : ℕ) :
    List.dropWhile isWS (List.replicate k ' ') = [] := by
  induction k with
  | zero => rfl
  | succ n ih =>
    rw [List.replicate_succ, List.dropWhile_cons, isWS_space, if_pos rfl]
    exact ih

lemma dropWhile_replicate_space_append (k : ℕ) (x : List Char) :
    List.dropWhile isWS (List.replicate k ' ' ++ x) = List.dropWhile isWS x := by
  induction k with
  | zero => rfl
  | succ n ih =>
    rw [List.replicate_succ, List.cons_append, List.dropWhile_cons, isWS_space,
      if_pos rfl]
    exact ih

lemma pyStrip_append_spaces (v : List Char) (k : ℕ) :
    pyStrip (v ++ List.replicate k ' ') = pyStrip v := by
  unfold pyStrip
  rcases h : List.dropWhile isWS v with _ | ⟨c, t⟩
  · rw [List.dropWhile_append, h]
    simp only [List.isEmpty_nil, if_true]
    rw [dropWhile_replicate_space]
  · rw [List.dropWhile_append, h]
    simp only [List.isEmpty_cons, Bool.false_eq_true, if_false]
    rw [List.reverse_append, List.reverse_replicate,
      dropWhile_replicate_space_append]

lemma pyStrip_nil : pyStrip ([] : List Char) = [] := rfl

lemma pySliceList_append_spaces (l : List Char) (k a b : ℕ) :
    ∃ m, pySliceList (l ++ List.replicate k ' ') a b
      = pySliceList l a b ++ List.replicate m ' ' := by
  unfold pySliceList
  rw [List.drop_append_eq_append_drop, List.drop_replicate,
    List.take_append_eq_append_take, List.take_replicate]
  exact ⟨_, rfl⟩

lemma flatMap_replicate_space_plus (k : ℕ) :
    (List.replicate k ' ').flatMap
      (fun x => if x = '+' then ['e', '+'] else [x]) = List.replicate k ' ' := by
  induction k with
  | zero => rfl
  | succ n ih => simpa [List.replicate_succ] using ih

lemma flatMap_replicate_space_minus (k : ℕ) :
    (List.replicate k ' ').flatMap
      (fun x => if x = '-' then ['e', '-'] else [x]) = List.replicate k ' ' := by
  induction k with
  | zero => rfl
  | succ n ih => simpa [List.replicate_succ] using ih

lemma replace2_append (l1 l2 : List Char) :
    replace2 (l1 ++ l2) = replace2 l1 ++ replace2 l2 := by
  unfold replace2
  rw [List.flatMap_append, List.flatMap_append]

lemma replace2_replicate_space (k : ℕ) :
    replace2 (List.replicate k ' ') = List.replicate k ' ' := by
  unfold replace2
  rw [flatMap_replicate_space_plus, flatMap_replicate_space_minus]

lemma shorthandFix_append_spaces (v : List Char) (k : ℕ) (hv : v ≠ []) :
    shorthandFix (v ++ List.replicate k ' ') = shorthandFix v ++ List.replicate k ' ' := by
  rcases v with _ | ⟨c, rest⟩
  · exact absurd rfl hv
  · simp only [List.cons_append, shorthandFix]
    rw [replace2_append, replace2_replicate_space]

lemma pyFloat_append_spaces (cs : List Char) (k : ℕ) :
    pyFloat (cs ++ List.replicate k ' ') = pyFloat cs := by
  unfold pyFloat
  rw [pyStrip_append_spaces]

lemma read_float_append_spaces (v : List Char) (k : ℕ) :
    read_float (v ++ List.replicate k ' ') = read_float v := by
  unfold read_float
  rw [pyStrip_append_spaces, pyFloat_append_spaces]
  by_cases h : pyStrip v = []
  · simp [h]
  · simp only [h, if_false]
    rcases hf : pyFloat v with _ | x
    · have hv : v ≠ [] := by
        intro hnil
        exact h (hnil ▸ pyStrip_nil)
      rw [shorthandFix_append_spaces v k hv, pyFloat_append_spaces]
    · rfl

/-- C9 (amended): `read_line` applied to a line shorter than 80
columns equals `read_line` of the line blank-padded to 80 columns:
missing columns are silently treated as blanks (each out-of-range
slice is short or empty and decodes like its padded form); no
truncation error is raised. -/
theorem read_line_truncation_pads (l : Line) :
    read_line (l ++ List.replicate (80 - l.length) ' ') = read_line l := by
  unfold read_line
  obtain ⟨m1, h1⟩ := pySliceList_append_spaces l (80 - l.length) 0 11
  obtain ⟨m2, h2⟩ := pySliceList_append_spaces l (80 - l.length) 11 22
  obtain ⟨m3, h3⟩ := pySliceList_append_spaces l (80 - l.length) 22 33
  obtain ⟨m4, h4⟩ := pySliceList_append_spaces l (80 - l.length) 33 44
  obtain ⟨m5, h5⟩ := pySliceList_append_spaces l (80 - l.length) 44 55
  obtain ⟨m6, h6⟩ := pySliceList_append_spaces l (80 - l.length) 55 66
  simp only [h1, h2, h3, h4, h5, h6, read_float_append_spaces]

/-- C9, counterexample to the claim as stated: a line shorter than 80
columns (here: the empty line) is not rejected with a truncation
error; all six fields decode as blank, i.e. `0.0`. -/
theorem read_line_empty_succeeds :
    read_line ([] : Line) = some (0, 0, 0, 0, 0, 0) := by decide

/-- C8, counterexample to the claim as stated: on ranges of 0 or 1
lines `read_table` does not return an empty table; `lines[1]` raises
`IndexError` (modelled by `none`). -/
theorem read_table_short_range_fails :
    read_table ([] : List Line) = none ∧ read_table [([] : Line)] = none :=
  ⟨rfl, rfl⟩

/-- C8 (amended): `read_table` has no failure path other than the
decode failures of the line/field decoder together with the
`IndexError` on ranges shorter than 2 lines; a range of 2 or 3 lines
(holding no data lines) yields the empty table. -/
theorem read_table_two_or_three_lines (lines : List Line) (l1 : Line)
    (f : ℚ × ℚ × ℚ × ℚ × ℚ × ℚ)
    (hlen : lines.length = 2 ∨ lines.length = 3)
    (h1 : lines.get? 1 = some l1)
    (h2 : read_line l1 = some f) :
    read_table lines = some ([], []) := by
  have hdrop : lines.drop 3 = [] := by
    apply List.drop_eq_nil_of_le
    rcases hlen with h | h <;> omega
  unfold read_table
  rw [h1, hdrop]
  simp [h2, mapOpt, pySlice]

/-- C7: a yield section whose declared subsection count (field 4 of
its first line) is zero is returned whole and unsplit by
`find_yields`. -/
theorem find_yields_zero_subsections (lines sec : List Line) (fuel : ℕ)
    (h1 : find_section lines 6 5 = some sec)
    (h2 : get_num_subsections sec = some 0) :
    find_yields lines fuel = .whole sec := by
  simp only [find_yields, h1, h2]
  simp

/-- C7, witness: a one-line MF6/MT5 section with a blank subsection
count. -/
theorem find_yields_zero_subsections_witness :
    find_yields [t7l0] 0 = .whole [t7l0] :=
  find_yields_zero_subsections [t7l0] [t7l0] 0 (by decide) (by decide)

/-- C8, witness for the amended claim: a two-line range decodes to the
empty table. -/
theorem read_table_two_or_three_lines_witness :
    read_table [([] : Line), ([] : Line)] = some ([], []) :=
  read_table_two_or_three_lines [[], []] [] (0, 0, 0, 0, 0, 0)
    (Or.inl rfl) (by decide) (by decide)

end ENDF6

namespace ENDF6

/-! ### Helper lemmas: the cursor loop -/

lemma pyGet_mem {α : Type} {l : List α} {i : ℤ} {a : α}
    (h : pyGet l i = some a) : a ∈ l := by
  unfold pyGet at h
  split at h
  · exact List.get?_mem h
  · split at h
    · exact List.get?_mem h
    · cases h

lemma dataLinesOf_eq_ediv (np : ℤ) : dataLinesOf np = -((-np) / 3) := by
  unfold dataLinesOf
  rw [Int.fdiv_eq_ediv _ (by omega : (0:ℤ) ≤ 3)]

lemma dataLinesOf_nonneg {np : ℤ} (h : 0 ≤ np) : 0 ≤ dataLinesOf np := by
  rw [dataLinesOf_eq_ediv]
  omega

lemma splitLoop_exact_end (lines : List Line) (hl : Line) (fuel : ℕ)
    (acc : YieldDict) :
    splitLoop lines hl fuel ((lines.length : ℤ) + 1) acc = .dict acc := by
  cases fuel with
  | zero =>
    simp only [splitLoop]
    rw [if_neg (by omega)]
  | succ n =>
    simp only [splitLoop]
    rw [if_neg (by omega)]

lemma splitLoop_no_out_of_fuel (lines : List Line) (hl : Line)
    (h : ∀ l ∈ lines,
      ((parse_header l).all fun hdr => decide (0 ≤ hdr.2.2.2.2.2)) = true) :
    ∀ (fuel : ℕ) (ln : ℤ) (acc : YieldDict),
      (lines.length : ℤ) + 1 ≤ (fuel : ℤ) + ln →
      splitLoop lines hl fuel ln acc ≠ .outOfFuel := by
  intro fuel
  induction fuel with
  | zero =>
    intro ln acc hbound
    simp only [splitLoop]
    rw [if_neg (by push_cast at hbound ⊢; omega)]
    simp
  | succ n ih =>
    intro ln acc hbound
    by_cases hln : ln ≤ (lines.length : ℤ)
    · simp only [splitLoop]
      rw [if_pos hln]
      cases hget : pyGet lines (ln - 1) with
      | none => simp
      | some l =>
        cases hparse : parse_header l with
        | none => simp [hparse]
        | some hdr =>
          obtain ⟨ZAP, AWR, LIP, LAW, NR, NP⟩ := hdr
          simp only [hparse]
          have hNP : 0 ≤ NP := by
            have hm := h l (pyGet_mem hget)
            rw [hparse] at hm
            simpa using hm
          by_cases h1 : 1 < NR
          · simp [h1]
          · by_cases h2 : 0 < LAW
            · simp [h1, h2]
            · simp only [h1, h2, if_false]
              apply ih
              have hdl : 0 ≤ dataLinesOf NP := dataLinesOf_nonneg hNP
              push_cast at hbound ⊢
              omega
    · simp only [splitLoop]
      rw [if_neg hln]
      simp

/-- C6 (amended): the cursor loop terminates whenever every decodable
line of the section declares a nonnegative subsection point count NP
(then `data_lines = ceil(NP/3) ≥ 0` and the cursor advances by
`data_lines + 2 ≥ 2` each iteration, so `length + 1` iterations of
fuel always suffice); and a cursor landing exactly one past the end of
the range is not an error — the loop just returns its dictionary. -/
theorem splitLoop_terminates_nonneg_np (lines : List Line) (hl : Line)
    (h : ∀ l ∈ lines,
      ((parse_header l).all fun hdr => decide (0 ≤ hdr.2.2.2.2.2)) = true)
    (fuel : ℕ) (ln : ℤ) (acc : YieldDict)
    (hbound : (lines.length : ℤ) + 1 ≤ (fuel : ℤ) + ln) :
    splitLoop lines hl fuel ln acc ≠ .outOfFuel ∧
    splitLoop lines hl fuel ((lines.length : ℤ) + 1) acc = .dict acc :=
  ⟨splitLoop_no_out_of_fuel lines hl h fuel ln acc hbound,
   splitLoop_exact_end lines hl fuel acc⟩

/-- C6, witness: on a well-formed one-product section the loop
finishes within `length + 1` fuel and an exactly-at-end cursor exits
cleanly. -/
theorem splitLoop_terminates_nonneg_np_witness :
    splitLoop [w6l0, w6l1, w6l2, w6l3] w6l0 5 2 [] ≠ .outOfFuel ∧
    splitLoop [w6l0, w6l1, w6l2, w6l3] w6l0 5 5 [] = .dict [] :=
  splitLoop_terminates_nonneg_np [w6l0, w6l1, w6l2, w6l3] w6l0
    (by decide) 5 2 [] (by decide)

lemma splitLoop_t6_step (n : ℕ) (acc : YieldDict) :
    splitLoop [t6l0, t6l1] t6l0 (n + 1) 2 acc
      = splitLoop [t6l0, t6l1] t6l0 n 2
          (insertOverwrite ("41091".toList) [t6l0] acc) := rfl

lemma splitLoop_t6_diverges :
    ∀ (fuel : ℕ) (acc : YieldDict),
      splitLoop [t6l0, t6l1] t6l0 fuel 2 acc = .outOfFuel := by
  intro fuel
  induction fuel with
  | zero => intro acc; rfl
  | succ n ih =>
    intro acc
    rw [splitLoop_t6_step]
    exact ih _

/-- C6, counterexample to the claim as stated: on a section whose
subsection header declares `NP = -6` the cursor advance
`data_lines + 2 = ceil(-6/3) + 2` is `0`, so the cursor never moves
and the loop never terminates: for every amount of fuel the model
still reports `outOfFuel`. -/
theorem find_yields_negative_np_diverges :
    divergesOnAllFuel [t6l0, t6l1] := by
  intro fuel
  show splitLoop [t6l0, t6l1] t6l0 fuel 2 [] = .outOfFuel
  exact splitLoop_t6_diverges fuel []

/-- C5 (amended): the cursor loop checks its two preconditions in
order, but against `NR > 1` and `LAW > 0` (not `NR ≠ 1` / `LAW ≠ 0`):
a header with `NR > 1` aborts the run (the source prints and calls
`quit()`, modelled as the `unsupportedInterpolation` error value), and
a header with `NR ≤ 1` but `LAW > 0` aborts with
`unsupportedAngularData LAW`. -/
theorem splitLoop_precondition_checks (lines : List Line) (hl : Line)
    (fuel : ℕ) (ln : ℤ) (acc : YieldDict) (l : Line)
    (hdr : ℤ × ℚ × ℤ × ℤ × ℤ × ℤ)
    (hln : ln ≤ (lines.length : ℤ))
    (hget : pyGet lines (ln - 1) = some l)
    (hparse : parse_header l = some hdr) :
    (1 < hdr.2.2.2.2.1 →
      splitLoop lines hl (fuel + 1) ln acc = .err .unsupportedInterpolation) ∧
    (hdr.2.2.2.2.1 ≤ 1 → 0 < hdr.2.2.2.1 →
      splitLoop lines hl (fuel + 1) ln acc
        = .err (.unsupportedAngularData hdr.2.2.2.1)) := by
  obtain ⟨ZAP, AWR, LIP, LAW, NR, NP⟩ := hdr
  constructor
  · intro hNR
    simp only [splitLoop]
    rw [if_pos hln, hget]
    simp [hparse, hNR]
  · intro hNR hLAW
    simp only [splitLoop]
    rw [if_pos hln, hget]
    simp [hparse, not_lt.2 hNR, hLAW]

/-- C5, witness: a subsection header with `NR = 2` aborts with
`unsupportedInterpolation`; one with `NR = 1`, `LAW = 1` aborts with
`unsupportedAngularData 1`. -/
theorem splitLoop_precondition_checks_witness :
    splitLoop [t5b0, t5b1] t5b0 1 2 [] = .err .unsupportedInterpolation ∧
    splitLoop [t5b0, t5c1] t5b0 1 2 [] = .err (.unsupportedAngularData 1) :=
  ⟨(splitLoop_precondition_checks [t5b0, t5b1] t5b0 0 2 [] t5b1
      (41091, 0, 0, 0, 2, 3) (by decide) (by decide) (by decide)).1 (by decide),
   (splitLoop_precondition_checks [t5b0, t5c1] t5b0 0 2 [] t5c1
      (41091, 0, 0, 1, 1, 3) (by decide) (by decide) (by decide)).2
      (by decide) (by decide)⟩

/-- C5, counterexample to the claim as stated: a subsection header
whose interpolation-region count `NR` is `0` — which is not equal
to 1 — does not make the splitter fail: the section is split without
any error, because the source only rejects `NR > 1`. -/
theorem find_yields_nr_zero_no_error :
    parse_header t5l1 = some (41091, mkRat 90122 1000, 0, 0, 0, 3) ∧
    find_yields [t5l0, t5l1, t5l2, t5l3] 10
      = .dict [("41091".toList, [t5l0, t5l1, t5l2, t5l3])] := by
  exact ⟨by decide, by decide⟩

end ENDF6

namespace ENDF6

/-! ### Helper lemmas: locator -/

lemma get?_drop' {α : Type} (n m : ℕ) (l : List α) :
    (l.drop n).get? m = l.get? (n + m) := by
  simp [List.get?_eq_getElem?, List.getElem?_drop]

lemma pyIndex_spec {α : Type} [DecidableEq α] (x : α) :
    ∀ (l : List α) (i : ℕ), pyIndex x l = some i →
      i < l.length ∧ l.get? i = some x ∧ ∀ k, k < i → l.get? k ≠ some x := by
  intro l
  induction l with
  | nil => intro i h; cases h
  | cons a t ih =>
    intro i h
    unfold pyIndex at h
    by_cases hax : a = x
    · rw [if_pos hax] at h
      cases h
      refine ⟨by simp, by simp [hax], ?_⟩
      intro k hk
      omega
    · rw [if_neg hax] at h
      rcases ht : pyIndex x t with _ | j
      · rw [ht] at h; cases h
      · rw [ht] at h
        simp only [Option.map_some'] at h
        obtain ⟨hj1, hj2, hj3⟩ := ih j ht
        cases h
        refine ⟨by simpa using hj1, by simpa using hj2, ?_⟩
        intro k hk
        cases k with
        | zero => simpa using hax
        | succ k' => simpa using hj3 k' (by omega)

lemma pyIndex_isSome_of_mem {α : Type} [DecidableEq α] {x : α} :
    ∀ {l : List α}, x ∈ l → ∃ i, pyIndex x l = some i := by
  intro l
  induction l with
  | nil => intro h; cases h
  | cons a t ih =>
    intro h
    unfold pyIndex
    by_cases hax : a = x
    · exact ⟨0, by rw [if_pos hax]⟩
    · have hxt : x ∈ t := by
        rcases List.mem_cons.1 h with h1 | h1
        · exact absurd h1.symm hax
        · exact h1
      obtain ⟨j, hj⟩ := ih hxt
      exact ⟨j + 1, by rw [if_neg hax, hj]; rfl⟩

lemma matchAt_iff (lines : List Line) (mf mt : ℤ) (i : ℕ) :
    matchAt lines mf mt i = true ↔
      (lines.map (fun l => pySliceList l 70 75)).get? i = some (fmtTag mf mt) := by
  unfold matchAt
  rw [List.get?_map]
  cases h : lines.get? i with
  | none => simp
  | some l => simp [beq_iff_eq]

lemma pySlice_natCast {α : Type} (l : List α) (a b : ℕ)
    (ha : a ≤ l.length) (hb : b ≤ l.length) :
    pySlice l (a : ℤ) (b : ℤ) = (l.take b).drop a := by
  unfold pySlice pyIdx
  rw [if_neg (by omega), if_neg (by omega)]
  simp only [Int.toNat_ofNat]
  rw [Nat.min_eq_left ha, Nat.min_eq_left hb]

lemma decodeTag_of_tag35 {l : Line} (h : pySliceList l 70 75 = fmtTag 3 5) :
    decodeTag l = some (3, 5) := by
  have hft : fmtTag 3 5 = [' ', '3', ' ', ' ', '5'] := by decide
  have h5 : (l.drop 70).take 5 = [' ', '3', ' ', ' ', '5'] := by
    rw [← hft]; exact h
  have h2 : pySliceList l 70 72 = [' ', '3'] := by
    show (l.drop 70).take 2 = _
    have heq : (l.drop 70).take 2 = ((l.drop 70).take 5).take 2 := by
      rw [List.take_take]
      norm_num
    rw [heq, h5]
    rfl
  have h3 : pySliceList l 72 75 = [' ', ' ', '5'] := by
    show (l.drop 72).take 3 = _
    have hdd : l.drop 72 = (l.drop 70).drop 2 := by
      rw [List.drop_drop]
    rw [hdd, ← List.drop_take 5 2 (l.drop 70), h5]
    rfl
  unfold decodeTag
  simp only [h2, h3]
  decide

/-- C3: on a tape satisfying the sortedness/contiguity invariant (the
set of lines whose tag columns match a given tag is convex) and
containing at least one (MF=3, MT=5)-tagged line, `find_section`
returns exactly the slice `[first match, one past last match)`; that
range is precisely the set of matching indices (hence the maximal
contiguous run), and every line in it decodes to the tag `(3, 5)`. -/
theorem find_section_maximal_run (lines : List Line)
    (hconv : ∀ k, k < lines.length → ∀ j, j ≤ k → ∀ i, i ≤ j →
      matchAt lines 3 5 i = true → matchAt lines 3 5 k = true →
      matchAt lines 3 5 j = true)
    (hex : ∃ i, i < lines.length ∧ matchAt lines 3 5 i = true) :
    ∃ i0 i1, i0 < i1 ∧ i1 ≤ lines.length ∧
      find_section lines 3 5 = some ((lines.take i1).drop i0) ∧
      (∀ j : ℕ, (i0 ≤ j ∧ j < i1) ↔ matchAt lines 3 5 j = true) ∧
      (∀ l ∈ (lines.take i1).drop i0, decodeTag l = some (3, 5)) := by
  classical
  obtain ⟨w, hw, hmw⟩ := hex
  have hlen : (lines.map (fun l => pySliceList l 70 75)).length = lines.length := by
    simp
  have hwv : (lines.map (fun l => pySliceList l 70 75)).get? w = some (fmtTag 3 5) :=
    (matchAt_iff lines 3 5 w).1 hmw
  have hmem : fmtTag 3 5 ∈ lines.map (fun l => pySliceList l 70 75) :=
    List.get?_mem hwv
  obtain ⟨i0, hi0⟩ := pyIndex_isSome_of_mem hmem
  obtain ⟨hi0lt, hi0get, hi0min⟩ :=
    pyIndex_spec (fmtTag 3 5) (lines.map (fun l => pySliceList l 70 75)) i0 hi0
  have hmemr : fmtTag 3 5 ∈ (lines.map (fun l => pySliceList l 70 75)).reverse :=
    List.mem_reverse.2 hmem
  obtain ⟨jr, hjr⟩ := pyIndex_isSome_of_mem hmemr
  obtain ⟨hjrlt, hjrget, hjrmin⟩ :=
    pyIndex_spec (fmtTag 3 5) (lines.map (fun l => pySliceList l 70 75)).reverse jr hjr
  rw [List.length_reverse, hlen] at hjrlt
  rw [hlen] at hi0lt
  -- index of the last matching line
  have hlastget :
      (lines.map (fun l => pySliceList l 70 75)).get? (lines.length - 1 - jr)
        = some (fmtTag 3 5) := by
    rw [List.get?_reverse (show jr < _ by rw [hlen]; omega)] at hjrget
    rw [hlen] at hjrget
    exact hjrget
  have hlastmax : ∀ k, lines.length - 1 - jr < k →
      (lines.map (fun l => pySliceList l 70 75)).get? k ≠ some (fmtTag 3 5) := by
    intro k hk hkget
    obtain ⟨hklt, -⟩ := List.get?_eq_some.1 hkget
    rw [hlen] at hklt
    have hr : (lines.map (fun l => pySliceList l 70 75)).reverse.get?
        (lines.length - 1 - k) = some (fmtTag 3 5) := by
      rw [List.get?_reverse (show lines.length - 1 - k < _ by rw [hlen]; omega)]
      rw [hlen]
      have heq : lines.length - 1 - (lines.length - 1 - k) = k := by omega
      rw [heq]
      exact hkget
    exact hjrmin (lines.length - 1 - k) (by omega) hr
  have hi0last : i0 ≤ lines.length - 1 - jr := by
    by_contra hlt
    exact hi0min (lines.length - 1 - jr) (by omega) hlastget
  -- every index in [i0, lines.length - jr) matches
  have hall : ∀ j, i0 ≤ j → j < lines.length - jr → matchAt lines 3 5 j = true := by
    intro j hj1 hj2
    exact hconv (lines.length - 1 - jr) (by omega) j (by omega) i0 hj1
      ((matchAt_iff lines 3 5 i0).2 hi0get)
      ((matchAt_iff lines 3 5 (lines.length - 1 - jr)).2 hlastget)
  refine ⟨i0, lines.length - jr, by omega, by omega, ?_, ?_, ?_⟩
  · simp only [find_section, hi0, hjr, hlen]
    rw [pySlice_natCast lines i0 (lines.length - jr) (by omega) (by omega)]
  · intro j
    constructor
    · rintro ⟨hj1, hj2⟩
      exact hall j hj1 hj2
    · intro hmj
      have hjget := (matchAt_iff lines 3 5 j).1 hmj
      constructor
      · by_contra hlt
        exact hi0min j (by omega) hjget
      · by_contra hge
        exact hlastmax j (by omega) hjget
  · intro l hl
    obtain ⟨t, ht⟩ := List.mem_iff_get?.1 hl
    rw [get?_drop'] at ht
    obtain ⟨htlt, -⟩ := List.get?_eq_some.1 ht
    have htlt2 : i0 + t < lines.length - jr := by
      have := lines.length_take (lines.length - jr)
      omega
    rw [List.get?_take htlt2] at ht
    have hm := hall (i0 + t) (by omega) htlt2
    have hjget := (matchAt_iff lines 3 5 (i0 + t)).1 hm
    rw [List.get?_map, ht] at hjget
    simp only [Option.map_some'] at hjget
    exact decodeTag_of_tag35 (by injection hjget)

/-- C3, witness: a four-line tape with a two-line (3, 5) run in the
middle. -/
theorem find_section_maximal_run_witness :
    ∃ i0 i1, i0 < i1 ∧ i1 ≤ ([t3l0, t3l1, t3l2, t3l3] : List Line).length ∧
      find_section [t3l0, t3l1, t3l2, t3l3] 3 5
        = some ((([t3l0, t3l1, t3l2, t3l3] : List Line).take i1).drop i0) ∧
      (∀ j : ℕ, (i0 ≤ j ∧ j < i1) ↔ matchAt [t3l0, t3l1, t3l2, t3l3] 3 5 j = true) ∧
      (∀ l ∈ (([t3l0, t3l1, t3l2, t3l3] : List Line).take i1).drop i0,
        decodeTag l = some (3, 5)) :=
  find_section_maximal_run [t3l0, t3l1, t3l2, t3l3]
    (by decide) ⟨1, by decide, by decide⟩

end ENDF6

namespace ENDF6

/-! ### Helper lemmas: character classes -/

lemma isDig_val {c : Char} (h : isDig c = true) :
    48 ≤ c.toNat ∧ c.toNat ≤ 57 := by
  unfold isDig at h
  simp only [Bool.and_eq_true, decide_eq_true_eq] at h
  exact h

lemma isDig_not_isE {c : Char} (h : isDig c = true) : isE c = false := by
  obtain ⟨h1, h2⟩ := isDig_val h
  have he : c ≠ 'e' := by
    intro hc
    rw [hc] at h2
    exact absurd h2 (by decide)
  have hE : c ≠ 'E' := by
    intro hc
    rw [hc] at h2
    exact absurd h2 (by decide)
  simp [isE, he, hE]

lemma isDig_not_isWS {c : Char} (h : isDig c = true) : isWS c = false := by
  obtain ⟨h1, h2⟩ := isDig_val h
  unfold isWS
  simp only [Bool.or_eq_false_iff, decide_eq_false_iff_not]
  omega

lemma isDig_ne_dot {c : Char} (h : isDig c = true) : c ≠ '.' := by
  obtain ⟨h1, h2⟩ := isDig_val h
  intro hc
  rw [hc] at h1
  exact absurd h1 (by decide)

lemma isDig_ne_plus {c : Char} (h : isDig c = true) : c ≠ '+' := by
  obtain ⟨h1, h2⟩ := isDig_val h
  intro hc
  rw [hc] at h1
  exact absurd h1 (by decide)

lemma isDig_ne_minus {c : Char} (h : isDig c = true) : c ≠ '-' := by
  obtain ⟨h1, h2⟩ := isDig_val h
  intro hc
  rw [hc] at h1
  exact absurd h1 (by decide)

lemma isDig_false_of_sign {c : Char} (h : c = '+' ∨ c = '-') : isDig c = false := by
  rcases h with h | h <;> rw [h] <;> decide

lemma isE_false_of_sign {c : Char} (h : c = '+' ∨ c = '-') : isE c = false := by
  rcases h with h | h <;> rw [h] <;> decide

lemma isWS_false_of_sign {c : Char} (h : c = '+' ∨ c = '-') : isWS c = false := by
  rcases h with h | h <;> rw [h] <;> decide

end ENDF6

namespace ENDF6

/-! ### Helper lemmas: the shorthand retry of `read_float` -/

lemma splitAtE_no_e {cs : List Char} (h : ∀ c ∈ cs, isE c = false) :
    splitAtE cs = (cs, none) := by
  induction cs with
  | nil => rfl
  | cons a t ih =>
    unfold splitAtE
    rw [h a (by simp), if_neg (by simp)]
    rw [ih (fun c hc => h c (by simp [hc]))]

lemma splitAtE_append_e (m rest : List Char) (hm : ∀ c ∈ m, isE c = false) :
    splitAtE (m ++ 'e' :: rest) = (m, some rest) := by
  induction m with
  | nil => simp [splitAtE, isE]
  | cons a t ih =>
    rw [List.cons_append]
    unfold splitAtE
    rw [hm a (by simp), if_neg (by simp)]
    rw [ih (fun c hc => hm c (by simp [hc]))]

lemma takeWhile_append_stop {p : Char → Bool} {l1 : List Char}
    (h : ∀ c ∈ l1, p c = true) {a : Char} (ha : p a = false) (l2 : List Char) :
    (l1 ++ a :: l2).takeWhile p = l1 ∧ (l1 ++ a :: l2).dropWhile p = a :: l2 := by
  induction l1 with
  | nil => simp [List.takeWhile_cons, List.dropWhile_cons, ha]
  | cons b t ih =>
    obtain ⟨ih1, ih2⟩ := ih (fun c hc => h c (by simp [hc]))
    simp [List.cons_append, List.takeWhile_cons, List.dropWhile_cons,
      h b (by simp), ih1, ih2]

lemma takeWhile_of_all {p : Char → Bool} {l : List Char}
    (h : ∀ c ∈ l, p c = true) :
    l.takeWhile p = l ∧ l.dropWhile p = [] := by
  induction l with
  | nil => simp
  | cons b t ih =>
    obtain ⟨ih1, ih2⟩ := ih (fun c hc => h c (by simp [hc]))
    simp [List.takeWhile_cons, List.dropWhile_cons, h b (by simp), ih1, ih2]

lemma all_of_dropWhile_nil {p : Char → Bool} {l : List Char}
    (h : l.dropWhile p = []) : ∀ c ∈ l, p c = true := by
  induction l with
  | nil => simp
  | cons b t ih =>
    rw [List.dropWhile_cons] at h
    by_cases hb : p b = true
    · rw [if_pos hb] at h
      intro c hc
      rcases List.mem_cons.1 hc with h1 | h1
      · rw [h1]; exact hb
      · exact ih h c h1
    · rw [if_neg hb] at h
      cases h

lemma parseMantissa_shape {m : List Char} {x : ℚ} (h : parseMantissa m = some x) :
    (m ≠ [] ∧ ∀ c ∈ m, isDig c = true) ∨
    (∃ ip fp, m = ip ++ '.' :: fp ∧ (∀ c ∈ ip, isDig c = true) ∧
      (∀ c ∈ fp, isDig c = true)) := by
  unfold parseMantissa at h
  split at h
  · -- dropWhile = []
    rename_i hrest
    left
    have hall : ∀ c ∈ m, isDig c = true := all_of_dropWhile_nil hrest
    refine ⟨?_, hall⟩
    intro hnil
    rw [if_pos (by rw [hnil]; rfl)] at h
    cases h
  · -- dropWhile = '.' :: rest2
    rename_i rest2 hrest
    right
    split at h
    · rename_i hcond
      refine ⟨m.takeWhile isDig, rest2, ?_, fun c hc => List.mem_takeWhile_imp hc, ?_⟩
      · conv_lhs => rw [← List.takeWhile_append_dropWhile isDig m]
        rw [hrest]
      · exact all_of_dropWhile_nil hcond.1
    · cases h
  · cases h

lemma parseMantissa_chars {m : List Char} {x : ℚ} (h : parseMantissa m = some x) :
    m ≠ [] ∧ ∀ c ∈ m, isDig c = true ∨ c = '.' := by
  rcases parseMantissa_shape h with ⟨hne, hall⟩ | ⟨ip, fp, heq, hip, hfp⟩
  · exact ⟨hne, fun c hc => Or.inl (hall c hc)⟩
  · subst heq
    refine ⟨by simp, ?_⟩
    intro c hc
    rcases List.mem_append.1 hc with h1 | h1
    · exact Or.inl (hip c h1)
    · rcases List.mem_cons.1 h1 with h2 | h2
      · exact Or.inr h2
      · exact Or.inl (hfp c h2)

lemma parseMantissa_append_sign_fails {m d : List Char} {x : ℚ} {es : Char}
    (hm : parseMantissa m = some x) (hes : es = '+' ∨ es = '-') :
    parseMantissa (m ++ es :: d) = none := by
  have hesd : isDig es = false := isDig_false_of_sign hes
  rcases parseMantissa_shape hm with ⟨hne, hall⟩ | ⟨ip, fp, heq, hip, hfp⟩
  · obtain ⟨ht, hd2⟩ := takeWhile_append_stop hall hesd d
    unfold parseMantissa
    rw [hd2]
    rcases hes with h | h <;> rw [h] <;> rfl
  · subst heq
    obtain ⟨hfpt, hfpd⟩ := takeWhile_append_stop hfp hesd d
    obtain ⟨hipt, hipd⟩ :=
      takeWhile_append_stop hip (p := isDig) (by decide : isDig '.' = false)
        (fp ++ es :: d)
    unfold parseMantissa
    rw [List.append_assoc, List.cons_append]
    simp only [hipd]
    have hneg : ¬(List.dropWhile isDig (fp ++ es :: d) = [] ∧
        (List.takeWhile isDig (ip ++ '.' :: (fp ++ es :: d)) ≠ [] ∨
         List.takeWhile isDig (fp ++ es :: d) ≠ [])) := by
      rw [hfpd]
      rintro ⟨h1, -⟩
      cases h1
    rw [if_neg hneg]

end ENDF6

namespace ENDF6

lemma replaceP_id {l : List Char} (h : ∀ c ∈ l, c ≠ '+') :
    (l.flatMap fun x => if x = '+' then ['e', '+'] else [x]) = l := by
  induction l with
  | nil => rfl
  | cons a t ih =>
    rw [List.flatMap_cons, if_neg (h a (by simp)),
      ih (fun c hc => h c (by simp [hc]))]
    rfl

lemma replaceM_id {l : List Char} (h : ∀ c ∈ l, c ≠ '-') :
    (l.flatMap fun x => if x = '-' then ['e', '-'] else [x]) = l := by
  induction l with
  | nil => rfl
  | cons a t ih =>
    rw [List.flatMap_cons, if_neg (h a (by simp)),
      ih (fun c hc => h c (by simp [hc]))]
    rfl

lemma replace2_id {l : List Char} (h : ∀ c ∈ l, c ≠ '+' ∧ c ≠ '-') :
    replace2 l = l := by
  unfold replace2
  rw [replaceP_id (fun c hc => (h c hc).1), replaceM_id (fun c hc => (h c hc).2)]

lemma replace2_mantissa {m : List Char}
    (h : ∀ c ∈ m, isDig c = true ∨ c = '.') : replace2 m = m := by
  apply replace2_id
  intro c hc
  rcases h c hc with h1 | h1
  · exact ⟨isDig_ne_plus h1, isDig_ne_minus h1⟩
  · rw [h1]
    exact ⟨by decide, by decide⟩

lemma replace2_sign_digits {es : Char} {d : List Char}
    (hes : es = '+' ∨ es = '-') (hdd : ∀ c ∈ d, isDig c = true) :
    replace2 (es :: d) = 'e' :: es :: d := by
  have hdp : (d.flatMap fun x => if x = '+' then ['e', '+'] else [x]) = d :=
    replaceP_id (fun c hc => isDig_ne_plus (hdd c hc))
  have hdm : (d.flatMap fun x => if x = '-' then ['e', '-'] else [x]) = d :=
    replaceM_id (fun c hc => isDig_ne_minus (hdd c hc))
  rcases hes with h | h <;> subst h
  · unfold replace2
    rw [List.flatMap_cons, if_pos rfl, hdp]
    rw [show (['e', '+'] ++ d : List Char) = 'e' :: '+' :: d from rfl]
    rw [List.flatMap_cons, if_neg (by decide), List.flatMap_cons, if_neg (by decide), hdm]
    rfl
  · unfold replace2
    rw [List.flatMap_cons, if_neg (by decide), hdp, List.singleton_append]
    rw [List.flatMap_cons, if_pos rfl, hdm]
    rfl

lemma dropWhile_eq_self_of_head {p : Char → Bool} {l : List Char}
    (h : ∀ c, l.head? = some c → p c = false) : l.dropWhile p = l := by
  cases l with
  | nil => rfl
  | cons a t =>
    rw [List.dropWhile_cons, h a rfl]
    simp

lemma pyStrip_eq_self {l : List Char}
    (h1 : ∀ c, l.head? = some c → isWS c = false)
    (h2 : ∀ c, l.getLast? = some c → isWS c = false) : pyStrip l = l := by
  unfold pyStrip
  rw [dropWhile_eq_self_of_head h1]
  rw [dropWhile_eq_self_of_head (fun c hc => h2 c (by rwa [← List.head?_reverse]))]
  rw [List.reverse_reverse]

lemma getLast?_isDig {d : List Char} (hdd : ∀ c ∈ d, isDig c = true) :
    ∀ c, d.getLast? = some c → isWS c = false := by
  intro c hc
  have hm : c ∈ d := List.mem_of_mem_getLast? hc
  exact isDig_not_isWS (hdd c hm)

lemma getLast?_append_right {l1 l2 : List Char} (h : l2 ≠ []) :
    (l1 ++ l2).getLast? = l2.getLast? := by
  rcases List.exists_cons_of_ne_nil h with ⟨a, t, rfl⟩
  rw [List.getLast?_append_cons]

lemma parseUnsignedFull_sign_fails {m d : List Char} {x : ℚ} {es : Char}
    (hm : parseMantissa m = some x) (hes : es = '+' ∨ es = '-')
    (hdd : ∀ c ∈ d, isDig c = true) :
    parseUnsignedFull (m ++ es :: d) = none := by
  obtain ⟨hmne, hmchars⟩ := parseMantissa_chars hm
  have hnoE : ∀ c ∈ m ++ es :: d, isE c = false := by
    intro c hc
    rcases List.mem_append.1 hc with h1 | h1
    · rcases hmchars c h1 with h2 | h2
      · exact isDig_not_isE h2
      · rw [h2]; decide
    · rcases List.mem_cons.1 h1 with h2 | h2
      · subst h2; exact isE_false_of_sign hes
      · exact isDig_not_isE (hdd c h2)
  unfold parseUnsignedFull
  rw [splitAtE_no_e hnoE]
  exact parseMantissa_append_sign_fails hm hes

lemma parseExp_sign_digits {es : Char} {d : List Char}
    (hes : es = '+' ∨ es = '-') (hd : d ≠ []) (hdd : ∀ c ∈ d, isDig c = true) :
    parseExp (es :: d) = some (expVal es d) := by
  have hall : d.all isDig = true := List.all_eq_true.2 hdd
  rcases hes with h | h <;> subst h
  · simp [parseExp, expVal, hd, hall]
  · simp [parseExp, expVal, hd, hall]

lemma parseUnsignedFull_with_e {m d : List Char} {x : ℚ} {es : Char}
    (hm : parseMantissa m = some x) (hes : es = '+' ∨ es = '-')
    (hd : d ≠ []) (hdd : ∀ c ∈ d, isDig c = true) :
    parseUnsignedFull (m ++ 'e' :: es :: d)
      = some (qMul x (qPow10 (expVal es d))) := by
  obtain ⟨hmne, hmchars⟩ := parseMantissa_chars hm
  have hnoEm : ∀ c ∈ m, isE c = false := by
    intro c hc
    rcases hmchars c hc with h1 | h1
    · exact isDig_not_isE h1
    · rw [h1]; decide
  unfold parseUnsignedFull
  rw [splitAtE_append_e m (es :: d) hnoEm]
  simp only [hm, parseExp_sign_digits hes hd hdd]

lemma pyFloat_not_sign_head {c : Char} {t : List Char}
    (hstrip : pyStrip (c :: t) = c :: t) (hc1 : c ≠ '+') (hc2 : c ≠ '-') :
    pyFloat (c :: t) = parseUnsignedFull (c :: t) := by
  unfold pyFloat
  rw [hstrip]
  split
  · rename_i rest heq
    injection heq with e1 e2
    exact absurd e1 hc1
  · rename_i rest heq
    injection heq with e1 e2
    exact absurd e1 hc2
  · rfl

lemma pyFloat_plus_head {t : List Char}
    (hstrip : pyStrip ('+' :: t) = '+' :: t) :
    pyFloat ('+' :: t) = parseUnsignedFull t := by
  unfold pyFloat
  rw [hstrip]
  rfl

lemma pyFloat_minus_head {t : List Char}
    (hstrip : pyStrip ('-' :: t) = '-' :: t) :
    pyFloat ('-' :: t) = (parseUnsignedFull t).map (fun x => -x) := by
  unfold pyFloat
  rw [hstrip]
  rfl

lemma qMul_eq (a b : ℚ) : qMul a b = a * b := by
  unfold qMul
  rw [Rat.mkRat_eq_div]
  push_cast
  rw [← div_mul_div_comm, Rat.num_div_den, Rat.num_div_den]

lemma qPow10_eq (k : ℤ) : qPow10 k = (10 : ℚ) ^ k := by
  unfold qPow10
  split
  · rename_i hk
    rw [Rat.mkRat_eq_div]
    push_cast
    rw [div_one, ← zpow_natCast]
    congr 1
    omega
  · rename_i hk
    rw [Rat.mkRat_eq_div]
    push_cast
    rw [one_div, ← zpow_natCast, ← zpow_neg]
    congr 1
    omega

end ENDF6

namespace ENDF6

/-- C4: ENDF shorthand decoding.  For every field of the form
`[sign] mantissa esign digits` (the exponent marker omitted), the
direct `float` parse fails, `read_float` re-inserts the marker before
the second-or-later sign, and the decoded value is the denoted one:
`±mantissa · 10^(±digits)`, the leading sign preserved. -/
theorem read_float_shorthand (s0 m d : List Char) (es : Char) (x : ℚ)
    (hm : parseMantissa m = some x)
    (hs0 : s0 = [] ∨ s0 = ['+'] ∨ s0 = ['-'])
    (hes : es = '+' ∨ es = '-')
    (hd : d ≠ []) (hdd : ∀ c ∈ d, isDig c = true) :
    read_float (s0 ++ m ++ es :: d)
      = some (signVal s0 * x * (10 : ℚ) ^ expVal es d) := by
  obtain ⟨hmne, hmchars⟩ := parseMantissa_chars hm
  obtain ⟨c0, m', rfl⟩ := List.exists_cons_of_ne_nil hmne
  have hc0 : isDig c0 = true ∨ c0 = '.' := hmchars c0 (by simp)
  have hc0p : c0 ≠ '+' := by
    rcases hc0 with h | h
    · exact isDig_ne_plus h
    · rw [h]; decide
  have hc0m : c0 ≠ '-' := by
    rcases hc0 with h | h
    · exact isDig_ne_minus h
    · rw [h]; decide
  have hc0w : isWS c0 = false := by
    rcases hc0 with h | h
    · exact isDig_not_isWS h
    · rw [h]; decide
  have hlastE : ∀ (y : List Char) (c : Char),
      (y ++ d).getLast? = some c → isWS c = false := by
    intro y c hc
    rw [getLast?_append_right hd] at hc
    exact getLast?_isDig hdd c hc
  have hesd : isWS es = false := isWS_false_of_sign hes
  rcases hs0 with rfl | rfl | rfl
  · -- no leading sign
    rw [List.nil_append, List.cons_append]
    have hstrip : pyStrip (c0 :: (m' ++ es :: d)) = c0 :: (m' ++ es :: d) := by
      apply pyStrip_eq_self
      · intro c hc
        injection hc with e1
        rw [← e1]; exact hc0w
      · intro c hc
        rw [show c0 :: (m' ++ es :: d) = (c0 :: (m' ++ [es])) ++ d by simp] at hc
        exact hlastE _ c hc
    have hfail : pyFloat (c0 :: (m' ++ es :: d)) = none := by
      rw [pyFloat_not_sign_head hstrip hc0p hc0m, ← List.cons_append]
      exact parseUnsignedFull_sign_fails hm hes hdd
    have hfixval : shorthandFix (c0 :: (m' ++ es :: d))
        = c0 :: (m' ++ 'e' :: es :: d) := by
      simp only [shorthandFix]
      rw [replace2_append, replace2_mantissa (fun c hc => hmchars c (by simp [hc])),
        replace2_sign_digits hes hdd]
    have hfixstrip : pyStrip (c0 :: (m' ++ 'e' :: es :: d))
        = c0 :: (m' ++ 'e' :: es :: d) := by
      apply pyStrip_eq_self
      · intro c hc
        injection hc with e1
        rw [← e1]; exact hc0w
      · intro c hc
        rw [show c0 :: (m' ++ 'e' :: es :: d)
            = (c0 :: (m' ++ ['e', es])) ++ d by simp] at hc
        exact hlastE _ c hc
    have hfixparse : pyFloat (c0 :: (m' ++ 'e' :: es :: d))
        = some (qMul x (qPow10 (expVal es d))) := by
      rw [pyFloat_not_sign_head hfixstrip hc0p hc0m, ← List.cons_append]
      exact parseUnsignedFull_with_e hm hes hd hdd
    unfold read_float
    rw [hstrip, if_neg (List.cons_ne_nil _ _)]
    simp only [hfail, hfixval, hfixparse]
    rw [qMul_eq, qPow10_eq]
    rw [show signVal ([] : List Char) = 1 from by decide, one_mul]
  · -- leading '+'
    rw [show (['+'] ++ (c0 :: m') ++ es :: d : List Char)
        = '+' :: ((c0 :: m') ++ es :: d) by simp]
    have hstrip : pyStrip ('+' :: ((c0 :: m') ++ es :: d))
        = '+' :: ((c0 :: m') ++ es :: d) := by
      apply pyStrip_eq_self
      · intro c hc
        injection hc with e1
        rw [← e1]; decide
      · intro c hc
        rw [show '+' :: ((c0 :: m') ++ es :: d)
            = ('+' :: (c0 :: m' ++ [es])) ++ d by simp] at hc
        exact hlastE _ c hc
    have hfail : pyFloat ('+' :: ((c0 :: m') ++ es :: d)) = none := by
      rw [pyFloat_plus_head hstrip]
      exact parseUnsignedFull_sign_fails hm hes hdd
    have hfixval : shorthandFix ('+' :: ((c0 :: m') ++ es :: d))
        = '+' :: ((c0 :: m') ++ 'e' :: es :: d) := by
      simp only [shorthandFix]
      rw [replace2_append, replace2_mantissa hmchars,
        replace2_sign_digits hes hdd]
    have hfixstrip : pyStrip ('+' :: ((c0 :: m') ++ 'e' :: es :: d))
        = '+' :: ((c0 :: m') ++ 'e' :: es :: d) := by
      apply pyStrip_eq_self
      · intro c hc
        injection hc with e1
        rw [← e1]; decide
      · intro c hc
        rw [show '+' :: ((c0 :: m') ++ 'e' :: es :: d)
            = ('+' :: (c0 :: m' ++ ['e', es])) ++ d by simp] at hc
        exact hlastE _ c hc
    have hfixparse : pyFloat ('+' :: ((c0 :: m') ++ 'e' :: es :: d))
        = some (qMul x (qPow10 (expVal es d))) := by
      rw [pyFloat_plus_head hfixstrip]
      exact parseUnsignedFull_with_e hm hes hd hdd
    unfold read_float
    rw [hstrip, if_neg (List.cons_ne_nil _ _)]
    simp only [hfail, hfixval, hfixparse]
    rw [qMul_eq, qPow10_eq]
    rw [show signVal ['+'] = 1 from by decide, one_mul]
  · -- leading '-'
    rw [show (['-'] ++ (c0 :: m') ++ es :: d : List Char)
        = '-' :: ((c0 :: m') ++ es :: d) by simp]
    have hstrip : pyStrip ('-' :: ((c0 :: m') ++ es :: d))
        = '-' :: ((c0 :: m') ++ es :: d) := by
      apply pyStrip_eq_self
      · intro c hc
        injection hc with e1
        rw [← e1]; decide
      · intro c hc
        rw [show '-' :: ((c0 :: m') ++ es :: d)
            = ('-' :: (c0 :: m' ++ [es])) ++ d by simp] at hc
        exact hlastE _ c hc
    have hfail : pyFloat ('-' :: ((c0 :: m') ++ es :: d)) = none := by
      rw [pyFloat_minus_head hstrip]
      rw [parseUnsignedFull_sign_fails hm hes hdd]
      rfl
    have hfixval : shorthandFix ('-' :: ((c0 :: m') ++ es :: d))
        = '-' :: ((c0 :: m') ++ 'e' :: es :: d) := by
      simp only [shorthandFix]
      rw [replace2_append, replace2_mantissa hmchars,
        replace2_sign_digits hes hdd]
    have hfixstrip : pyStrip ('-' :: ((c0 :: m') ++ 'e' :: es :: d))
        = '-' :: ((c0 :: m') ++ 'e' :: es :: d) := by
      apply pyStrip_eq_self
      · intro c hc
        injection hc with e1
        rw [← e1]; decide
      · intro c hc
        rw [show '-' :: ((c0 :: m') ++ 'e' :: es :: d)
            = ('-' :: (c0 :: m' ++ ['e', es])) ++ d by simp] at hc
        exact hlastE _ c hc
    have hfixparse : pyFloat ('-' :: ((c0 :: m') ++ 'e' :: es :: d))
        = some (-(qMul x (qPow10 (expVal es d)))) := by
      rw [pyFloat_minus_head hfixstrip]
      rw [parseUnsignedFull_with_e hm hes hd hdd]
      rfl
    unfold read_float
    rw [hstrip, if_neg (List.cons_ne_nil _ _)]
    simp only [hfail, hfixval, hfixparse]
    rw [qMul_eq, qPow10_eq]
    rw [show signVal ['-'] = -1 from by decide]
    congr 1
    ring

/-- C4, witness: the spec's two examples, `1.23456+5` decoding to
`1.23456e5 = 123456` and `-1.23456-5` to `-1.23456e-5`. -/
theorem read_float_shorthand_witness :
    read_float ("1.23456+5".toList) = some 123456 ∧
    read_float ("-1.23456-5".toList) = some (mkRat (-123456) 10000000000) := by
  constructor
  · have h := read_float_shorthand [] ("1.23456".toList) ['5'] '+'
      (mkRat 123456 100000) (by decide) (Or.inl rfl) (Or.inl rfl)
      (by decide) (by decide)
    have e : ([] ++ "1.23456".toList ++ '+' :: ['5'] : List Char)
        = "1.23456+5".toList := by decide
    rw [e] at h
    rw [h]
    congr 1
    rw [show expVal '+' ['5'] = 5 from by decide,
      show signVal ([] : List Char) = 1 from by decide,
      Rat.mkRat_eq_div]
    norm_num
  · have h := read_float_shorthand ['-'] ("1.23456".toList) ['5'] '-'
      (mkRat 123456 100000) (by decide) (Or.inr (Or.inr rfl)) (Or.inr rfl)
      (by decide) (by decide)
    have e : (['-'] ++ "1.23456".toList ++ '-' :: ['5'] : List Char)
        = "-1.23456-5".toList := by decide
    rw [e] at h
    rw [h]
    congr 1
    rw [show expVal '-' ['5'] = -5 from by decide,
      show signVal ['-'] = -1 from by decide,
      Rat.mkRat_eq_div, Rat.mkRat_eq_div]
    norm_num

end ENDF6

namespace ENDF6

/-! ### Helper lemmas: the table reader -/

lemma mapOpt_length {α β : Type} (f : α → Option β) :
    ∀ {l : List α} {r : List β}, mapOpt f l = some r → r.length = l.length := by
  intro l
  induction l with
  | nil =>
    intro r h
    unfold mapOpt at h
    cases h
    rfl
  | cons a t ih =>
    intro r h
    unfold mapOpt at h
    cases hf : f a with
    | none => rw [hf] at h; cases h
    | some b =>
      rw [hf] at h
      cases hm : mapOpt f t with
      | none => rw [hm] at h; cases h
      | some bs =>
        rw [hm] at h
        cases h
        simp [ih hm]

lemma flatMap_three_length {α β : Type} (fs : List α) (g1 g2 g3 : α → β) :
    (fs.flatMap fun g => [g1 g, g2 g, g3 g]).length = 3 * fs.length := by
  induction fs with
  | nil => rfl
  | cons a t ih =>
    rw [List.flatMap_cons]
    simp [ih]
    omega

lemma pySlice_zero_toNat {α : Type} (l : List α) (n : ℤ) (h : 0 ≤ n) :
    pySlice l 0 n = l.take n.toNat := by
  unfold pySlice pyIdx
  rw [if_neg (by omega), if_neg (by omega)]
  simp only [Int.toNat_zero, Nat.zero_min, List.drop_zero]
  rcases le_or_lt n.toNat l.length with hle | hlt
  · rw [Nat.min_eq_left hle]
  · rw [Nat.min_eq_right (by omega)]
    rw [List.take_of_length_le (by omega), List.take_of_length_le (by omega)]

/-- C2: when line index 1 declares a nonnegative point count NP and
the range holds at least `ceil(NP/3)` data lines after the 3 header
lines (that is, `NP ≤ 3 · (length − 3)`), `read_table` returns the
`x`/`y` sequences truncated to exactly NP entries: the trailing pairs
of the final data line are discarded, not zero-filled. -/
theorem read_table_np_points (lines : List Line) (l1 : Line)
    (f : ℚ × ℚ × ℚ × ℚ × ℚ × ℚ) (fs : List (ℚ × ℚ × ℚ × ℚ × ℚ × ℚ))
    (h1 : lines.get? 1 = some l1)
    (h2 : read_line l1 = some f)
    (h3 : mapOpt read_line (lines.drop 3) = some fs)
    (h4 : 0 ≤ pyInt f.2.2.2.2.2)
    (h5 : (pyInt f.2.2.2.2.2).toNat ≤ 3 * (lines.length - 3)) :
    read_table lines
      = some
        ((fs.flatMap fun g => [g.1, g.2.2.1, g.2.2.2.2.1]).take
            (pyInt f.2.2.2.2.2).toNat,
         (fs.flatMap fun g => [g.2.1, g.2.2.2.1, g.2.2.2.2.2]).take
            (pyInt f.2.2.2.2.2).toNat) ∧
    ((fs.flatMap fun g => [g.1, g.2.2.1, g.2.2.2.2.1]).take
        (pyInt f.2.2.2.2.2).toNat).length = (pyInt f.2.2.2.2.2).toNat ∧
    ((fs.flatMap fun g => [g.2.1, g.2.2.2.1, g.2.2.2.2.2]).take
        (pyInt f.2.2.2.2.2).toNat).length = (pyInt f.2.2.2.2.2).toNat := by
  have hlen : fs.length = lines.length - 3 := by
    rw [mapOpt_length read_line h3, List.length_drop]
  refine ⟨?_, ?_, ?_⟩
  · unfold read_table
    rw [h1]
    simp only [Option.bind_eq_bind, Option.some_bind]
    rw [h2]
    simp only [Option.bind_eq_bind, Option.some_bind]
    rw [h3]
    simp only [Option.bind_eq_bind, Option.some_bind, Option.pure_def]
    rw [pySlice_zero_toNat _ _ h4, pySlice_zero_toNat _ _ h4]
  · rw [List.length_take, flatMap_three_length]
    omega
  · rw [List.length_take, flatMap_three_length]
    omega

/-- C2, witness: a five-line section declaring NP = 4 with two packed
data lines (six pairs); the last two pairs are discarded. -/
theorem read_table_np_points_witness :
    read_table [t2l0, t2l1, t2l2, t2l3, t2l4]
      = some ([1, 2, 3, 4], [mkRat 1 10, mkRat 1 5, mkRat 3 10, mkRat 2 5]) ∧
    ([1, 2, 3, 4] : List ℚ).length = 4 := by
  have h := read_table_np_points [t2l0, t2l1, t2l2, t2l3, t2l4] t2l1
    (0, 0, 0, 0, 0, 4)
    [(1, mkRat 1 10, 2, mkRat 1 5, 3, mkRat 3 10),
     (4, mkRat 2 5, 5, mkRat 1 2, 6, mkRat 3 5)]
    (by decide) (by decide) (by decide) (by decide) (by decide)
  exact ⟨h.1.trans (by decide), by decide⟩

end ENDF6

namespace ENDF6

/-! ### Helper lemmas: the yield dictionary -/

lemma insertOverwrite_of_not_mem {k : List Char} {v : List Line} :
    ∀ {d : YieldDict}, k ∉ d.map Prod.fst →
      insertOverwrite k v d = d ++ [(k, v)] := by
  intro d
  induction d with
  | nil => intro _; rfl
  | cons p rest ih =>
    intro h
    obtain ⟨k', v'⟩ := p
    simp only [List.map_cons, List.mem_cons] at h
    push_neg at h
    unfold insertOverwrite
    rw [if_neg (fun he => h.1 he.symm)]
    rw [ih h.2, List.cons_append]

lemma length_insertOverwrite_le (k : List Char) (v : List Line) :
    ∀ (d : YieldDict), (insertOverwrite k v d).length ≤ d.length + 1 := by
  intro d
  induction d with
  | nil => simp [insertOverwrite]
  | cons p rest ih =>
    obtain ⟨k', v'⟩ := p
    unfold insertOverwrite
    by_cases h : k' = k
    · rw [if_pos h]
      simp
    · rw [if_neg h]
      simp only [List.length_cons]
      omega

lemma length_insertOverwrite_of_mem (k : List Char) (v : List Line) :
    ∀ {d : YieldDict}, k ∈ d.map Prod.fst →
      (insertOverwrite k v d).length = d.length := by
  intro d
  induction d with
  | nil => intro h; cases h
  | cons p rest ih =>
    intro h
    obtain ⟨k', v'⟩ := p
    unfold insertOverwrite
    by_cases he : k' = k
    · rw [if_pos he]
      simp
    · rw [if_neg he]
      simp only [List.length_cons]
      rw [ih ?_]
      simp only [List.map_cons, List.mem_cons] at h
      rcases h with h | h
      · exact absurd h.symm he
      · exact h

lemma mem_keys_insertOverwrite (k k' : List Char) (v : List Line) :
    ∀ {d : YieldDict}, k' ∈ d.map Prod.fst →
      k' ∈ (insertOverwrite k v d).map Prod.fst := by
  intro d
  induction d with
  | nil => intro h; cases h
  | cons p rest ih =>
    intro h
    obtain ⟨k0, v0⟩ := p
    simp only [List.map_cons, List.mem_cons] at h
    unfold insertOverwrite
    by_cases he : k0 = k
    · rw [if_pos he]
      simp only [List.map_cons, List.mem_cons]
      rcases h with h | h
      · exact Or.inl (he ▸ h)
      · exact Or.inr h
    · rw [if_neg he]
      simp only [List.map_cons, List.mem_cons]
      rcases h with h | h
      · exact Or.inl h
      · exact Or.inr (ih h)

lemma mem_keys_insertOverwrite_self (k : List Char) (v : List Line) :
    ∀ (d : YieldDict), k ∈ (insertOverwrite k v d).map Prod.fst := by
  intro d
  induction d with
  | nil => simp [insertOverwrite]
  | cons p rest ih =>
    obtain ⟨k0, v0⟩ := p
    unfold insertOverwrite
    by_cases he : k0 = k
    · rw [if_pos he]
      simp
    · rw [if_neg he]
      simp only [List.map_cons, List.mem_cons]
      exact Or.inr ih

lemma lookupDict_insertOverwrite_self (k : List Char) (v : List Line) :
    ∀ (d : YieldDict), lookupDict k (insertOverwrite k v d) = some v := by
  intro d
  induction d with
  | nil => simp [insertOverwrite, lookupDict]
  | cons p rest ih =>
    obtain ⟨k0, v0⟩ := p
    unfold insertOverwrite
    by_cases he : k0 = k
    · rw [if_pos he]
      simp [lookupDict]
    · rw [if_neg he]
      unfold lookupDict
      rw [if_neg he]
      exact ih

lemma lookupDict_insertOverwrite_ne {k k' : List Char} (v : List Line)
    (hne : k' ≠ k) :
    ∀ (d : YieldDict), lookupDict k (insertOverwrite k' v d) = lookupDict k d := by
  intro d
  induction d with
  | nil => simp [insertOverwrite, lookupDict, hne]
  | cons p rest ih =>
    obtain ⟨k0, v0⟩ := p
    unfold insertOverwrite
    by_cases he : k0 = k'
    · rw [if_pos he]
      unfold lookupDict
      rw [if_neg (he ▸ hne), if_neg (by rw [he]; exact hne)]
    · rw [if_neg he]
      unfold lookupDict
      by_cases h0 : k0 = k
      · rw [if_pos h0, if_pos h0]
      · rw [if_neg h0, if_neg h0]
        exact ih

end ENDF6

namespace ENDF6

lemma foldl_insertOverwrite_nodup (hl : Line) :
    ∀ (blocks : List (List Line)) (acc : YieldDict),
      (blocks.map blockKey).Nodup →
      (∀ b ∈ blocks, blockKey b ∉ acc.map Prod.fst) →
      blocks.foldl (fun a b => insertOverwrite (blockKey b) (hl :: b) a) acc
        = acc ++ blocks.map (fun b => (blockKey b, hl :: b)) := by
  intro blocks
  induction blocks with
  | nil => intro acc _ _; simp
  | cons b bs ih =>
    intro acc hnodup hdisj
    rw [List.foldl_cons]
    rw [List.map_cons, List.nodup_cons] at hnodup
    have hbe : insertOverwrite (blockKey b) (hl :: b) acc = acc ++ [(blockKey b, hl :: b)] :=
      insertOverwrite_of_not_mem (hdisj b (by simp))
    rw [hbe, ih (acc ++ [(blockKey b, hl :: b)]) hnodup.2 ?_]
    · simp
    · intro b' hb'
      simp only [List.map_append, List.mem_append, List.map_cons, List.map_nil]
      push_neg
      constructor
      · exact hdisj b' (by simp [hb'])
      · intro hmem
        simp only [List.mem_cons, List.not_mem_nil, or_false] at hmem
        exact hnodup.1 (hmem ▸ List.mem_map_of_mem blockKey hb')

lemma length_foldl_insertOverwrite_le (hl : Line) :
    ∀ (blocks : List (List Line)) (acc : YieldDict),
      (blocks.foldl (fun a b => insertOverwrite (blockKey b) (hl :: b) a) acc).length
        ≤ acc.length + blocks.length := by
  intro blocks
  induction blocks with
  | nil => intro acc; simp
  | cons b bs ih =>
    intro acc
    rw [List.foldl_cons]
    calc (bs.foldl (fun a b => insertOverwrite (blockKey b) (hl :: b) a)
          (insertOverwrite (blockKey b) (hl :: b) acc)).length
        ≤ (insertOverwrite (blockKey b) (hl :: b) acc).length + bs.length := ih _
      _ ≤ acc.length + 1 + bs.length := by
          have := length_insertOverwrite_le (blockKey b) (hl :: b) acc
          omega
      _ = acc.length + (b :: bs).length := by simp; omega

lemma mem_keys_foldl_insertOverwrite (hl : Line) (k : List Char) :
    ∀ (blocks : List (List Line)) (acc : YieldDict),
      k ∈ acc.map Prod.fst →
      k ∈ (blocks.foldl (fun a b => insertOverwrite (blockKey b) (hl :: b) a) acc).map
        Prod.fst := by
  intro blocks
  induction blocks with
  | nil => intro acc h; simpa using h
  | cons b bs ih =>
    intro acc h
    rw [List.foldl_cons]
    exact ih _ (mem_keys_insertOverwrite _ _ _ h)

lemma key_mem_keys_foldl_insertOverwrite (hl : Line) :
    ∀ (blocks : List (List Line)) (acc : YieldDict) (b : List Line), b ∈ blocks →
      blockKey b ∈
        (blocks.foldl (fun a b => insertOverwrite (blockKey b) (hl :: b) a) acc).map
          Prod.fst := by
  intro blocks
  induction blocks with
  | nil => intro acc b h; cases h
  | cons b0 bs ih =>
    intro acc b hb
    rw [List.foldl_cons]
    rcases List.mem_cons.1 hb with h | h
    · subst h
      exact mem_keys_foldl_insertOverwrite hl _ bs _
        (mem_keys_insertOverwrite_self _ _ _)
    · exact ih _ b h

lemma lookupDict_foldl_insertOverwrite_ne (hl : Line) {k : List Char} :
    ∀ (blocks : List (List Line)) (acc : YieldDict),
      (∀ b ∈ blocks, blockKey b ≠ k) →
      lookupDict k (blocks.foldl (fun a b => insertOverwrite (blockKey b) (hl :: b) a) acc)
        = lookupDict k acc := by
  intro blocks
  induction blocks with
  | nil => intro acc _; rfl
  | cons b bs ih =>
    intro acc h
    rw [List.foldl_cons]
    rw [ih _ (fun b' hb' => h b' (by simp [hb']))]
    exact lookupDict_insertOverwrite_ne _ (h b (by simp)) acc

end ENDF6

namespace ENDF6

/-- The cursor loop consumes a sequence of well-formed subsection
blocks laid out back to back from the cursor position, storing each
under its product key (the section header line prepended). -/
lemma splitLoop_join (hl : Line) :
    ∀ (blocks : List (List Line)) (lines : List Line) (fuel : ℕ) (ln : ℤ)
      (acc : YieldDict),
      1 ≤ ln →
      lines.drop (ln - 1).toNat = blocks.flatten →
      (∀ b ∈ blocks, wfBlock b = true) →
      blocks.length ≤ fuel →
      splitLoop lines hl fuel ln acc
        = .dict (blocks.foldl
            (fun a b => insertOverwrite (blockKey b) (hl :: b) a) acc) := by
  intro blocks
  induction blocks with
  | nil =>
    intro lines fuel ln acc hln hdrop hwf hfuel
    have hlen : lines.length ≤ (ln - 1).toNat := by
      have h2 := congrArg List.length hdrop
      rw [List.length_drop, List.flatten_nil, List.length_nil] at h2
      omega
    have hgt : ¬ (ln ≤ (lines.length : ℤ)) := by omega
    cases fuel with
    | zero =>
      simp only [splitLoop]
      rw [if_neg hgt]
      rfl
    | succ n =>
      simp only [splitLoop]
      rw [if_neg hgt]
      rfl
  | cons b bs ih =>
    intro lines fuel ln acc hln hdrop hwf hfuel
    have hwfb := hwf b (by simp)
    cases hb : b with
    | nil => rw [hb] at hwfb; cases hwfb
    | cons hdr rest =>
      subst hb
      rw [List.flatten_cons] at hdrop
      cases hp : parse_header hdr with
      | none =>
        simp only [wfBlock, hp] at hwfb
        exact Bool.noConfusion hwfb
      | some hdr6 =>
        obtain ⟨ZAP, AWR, LIP, LAW, NR, NP⟩ := hdr6
        simp only [wfBlock, hp, Bool.and_eq_true, decide_eq_true_eq,
          beq_iff_eq, List.length_cons] at hwfb
        obtain ⟨⟨⟨hNR, hLAW⟩, hNP⟩, hblen⟩ := hwfb
        have hdl : 0 ≤ dataLinesOf NP := dataLinesOf_nonneg hNP
        -- the cursor is inside the range
        have hdlen := congrArg List.length hdrop
        simp only [List.length_drop, List.length_cons, List.length_append] at hdlen
        have hk1 : (ln - 1).toNat < lines.length := by omega
        have hlncond : ln ≤ (lines.length : ℤ) := by omega
        cases fuel with
        | zero =>
          simp only [List.length_cons] at hfuel
          omega
        | succ n =>
          simp only [splitLoop]
          rw [if_pos hlncond]
          have hget : lines.get? (ln - 1).toNat = some hdr := by
            have h0 := get?_drop' (ln - 1).toNat 0 lines
            rw [hdrop] at h0
            simpa using h0.symm
          have hpg : pyGet lines (ln - 1) = some hdr := by
            unfold pyGet
            rw [if_pos (by omega : (0:ℤ) ≤ ln - 1)]
            exact hget
          rw [hpg]
          simp only [hp]
          rw [if_neg (by omega : ¬ (1 < NR)), if_neg (by omega : ¬ (0 < LAW))]
          have hslice : pySlice lines (ln - 1) (ln - 1 + dataLinesOf NP + 2)
              = hdr :: rest := by
            unfold pySlice pyIdx
            rw [if_neg (by omega : ¬ (ln - 1 < 0)),
              if_neg (by omega : ¬ (ln - 1 + dataLinesOf NP + 2 < 0))]
            have ht1 : min (ln - 1).toNat lines.length = (ln - 1).toNat := by omega
            have ht2 : (ln - 1 + dataLinesOf NP + 2).toNat
                = (ln - 1).toNat + ((dataLinesOf NP).toNat + 2) := by omega
            have hband : (ln - 1).toNat + ((dataLinesOf NP).toNat + 2) ≤ lines.length := by
              omega
            rw [ht1, ht2, Nat.min_eq_left hband]
            rw [List.drop_take]
            have harith : (ln - 1).toNat + ((dataLinesOf NP).toNat + 2) - (ln - 1).toNat
                = (dataLinesOf NP).toNat + 2 := by omega
            rw [harith, hdrop, ← hblen]
            exact List.take_left (hdr :: rest) bs.flatten
          rw [hslice]
          have hkey : (intToStr ZAP ++ if 0 < LIP then ['m'] else [])
              = blockKey (hdr :: rest) := by
            simp only [blockKey, hp]
          rw [hkey]
          have hdrop2 : lines.drop (ln + dataLinesOf NP + 2 - 1).toNat = bs.flatten := by
            have hstep : (ln + dataLinesOf NP + 2 - 1).toNat
                = (ln - 1).toNat + ((dataLinesOf NP).toNat + 2) := by omega
            rw [hstep, ← List.drop_drop, hdrop, ← hblen]
            exact List.drop_left (hdr :: rest) bs.flatten
          rw [ih lines n (ln + dataLinesOf NP + 2)
            (insertOverwrite (blockKey (hdr :: rest)) (hl :: hdr :: rest) acc)
            (by omega) hdrop2 (fun b' hb' => hwf b' (by simp [hb'])) (by simpa using hfuel)]
          rw [List.foldl_cons]

end ENDF6

namespace ENDF6

/-- C1 (amended): on a yield section declaring `n ≠ 0` subsections
that physically consists of the shared header line followed by exactly
`n` well-formed subsection blocks with pairwise distinct product keys,
`find_yields` returns the dictionary mapping each block's key to the
header line followed by that block — so the mapping has exactly as
many entries as the declared subsection count, every isomer product
(`LIP > 0`) is keyed with a trailing `m` appended to its identifier,
and every entry's record block starts with the shared header line. -/
theorem find_yields_subsection_count (lines sec : List Line) (hl : Line)
    (blocks : List (List Line)) (n : ℤ) (fuel : ℕ)
    (hfs : find_section lines 6 5 = some sec)
    (hn : get_num_subsections sec = some n)
    (hn0 : n ≠ 0)
    (hsec : sec = hl :: blocks.flatten)
    (hwf : ∀ b ∈ blocks, wfBlock b = true)
    (hcount : (blocks.length : ℤ) = n)
    (hkeys : (blocks.map blockKey).Nodup)
    (hfuel : blocks.length ≤ fuel) :
    find_yields lines fuel
      = .dict (blocks.map (fun b => (blockKey b, hl :: b))) ∧
    ((blocks.map (fun b => (blockKey b, hl :: b))).length : ℤ) = n ∧
    (∀ b ∈ blocks, ∀ ZAP AWR LIP LAW NR NP,
      parse_header (b.headD []) = some (ZAP, AWR, LIP, LAW, NR, NP) →
      0 < LIP → blockKey b = intToStr ZAP ++ ['m']) ∧
    (∀ p ∈ blocks.map (fun b => (blockKey b, hl :: b)), p.2.headD [] = hl) := by
  subst hsec
  refine ⟨?_, ?_, ?_, ?_⟩
  · simp only [find_yields, hfs, hn]
    rw [if_neg hn0]
    have hpg : pyGet (hl :: blocks.flatten) 0 = some hl := by
      unfold pyGet
      rw [if_pos (by omega)]
      rfl
    simp only [hpg]
    rw [splitLoop_join hl blocks (hl :: blocks.flatten) fuel 2 [] (by omega)
      (by simp) hwf hfuel]
    rw [foldl_insertOverwrite_nodup hl blocks [] hkeys (by simp)]
    rw [List.nil_append]
  · simpa using hcount
  · intro b hb ZAP AWR LIP LAW NR NP hph hLIP
    have hwfb := hwf b hb
    cases b with
    | nil =>
      simp only [wfBlock] at hwfb
      exact Bool.noConfusion hwfb
    | cons hdr rest =>
      simp only [List.headD_cons] at hph
      simp only [blockKey, hph]
      rw [if_pos hLIP]
  · intro p hp
    obtain ⟨b, hb, rfl⟩ := List.mem_map.1 hp
    rfl

/-- C1, witness: the spec's end-to-end example — a section declaring
2 subsections with product codes `41091` (ground state) and `41091m`
(isomer flag set); the map has the two keys and both blocks start with
the shared header line. -/
theorem find_yields_subsection_count_witness :
    find_yields [w1l0, w1l1, w1l2, w1l3, w1l4, w1l5, w1l6] 10
      = .dict [("41091".toList, [w1l0, w1l1, w1l2, w1l3]),
               ("41091m".toList, [w1l0, w1l4, w1l5, w1l6])] ∧
    ((2 : ℕ) : ℤ) = 2 := by
  have h := find_yields_subsection_count
    [w1l0, w1l1, w1l2, w1l3, w1l4, w1l5, w1l6]
    [w1l0, w1l1, w1l2, w1l3, w1l4, w1l5, w1l6]
    w1l0 [[w1l1, w1l2, w1l3], [w1l4, w1l5, w1l6]] 2 10
    (by decide) (by decide) (by decide) (by decide) (by decide) (by decide)
    (by decide) (by decide)
  exact ⟨h.1.trans (by decide), rfl⟩

/-- C1, counterexample to the claim as stated: a structurally
well-formed yield section declaring 2 subsections whose two blocks
decode to the same product key `41091`; the returned mapping holds
only one entry (the second block silently overwrote the first), not
the declared two. -/
theorem find_yields_duplicate_key_counterexample :
    find_section [t1l0, t1l1, t1l2, t1l3, t1l4, t1l5, t1l6] 6 5
      = some [t1l0, t1l1, t1l2, t1l3, t1l4, t1l5, t1l6] ∧
    get_num_subsections [t1l0, t1l1, t1l2, t1l3, t1l4, t1l5, t1l6] = some 2 ∧
    find_yields [t1l0, t1l1, t1l2, t1l3, t1l4, t1l5, t1l6] 10
      = .dict [("41091".toList, [t1l0, t1l4, t1l5, t1l6])] :=
  ⟨by decide, by decide, by decide⟩

/-- C10: when two or more subsections decode to the same product key
(same ZAP, same isomer-flag status), the dictionary keeps only the
block of the last such subsection — each later `dict` assignment
silently overwrites the earlier one — and therefore holds strictly
fewer entries than the number of subsections parsed. -/
theorem find_yields_duplicate_key_overwrites (lines sec : List Line) (hl : Line)
    (blocks1 blocks2 : List (List Line)) (bj : List Line) (n : ℤ) (fuel : ℕ)
    (hfs : find_section lines 6 5 = some sec)
    (hn : get_num_subsections sec = some n)
    (hn0 : n ≠ 0)
    (hsec : sec = hl :: (blocks1 ++ bj :: blocks2).flatten)
    (hwf : ∀ b ∈ blocks1 ++ bj :: blocks2, wfBlock b = true)
    (hfuel : (blocks1 ++ bj :: blocks2).length ≤ fuel)
    (hdup : ∃ b ∈ blocks1, blockKey b = blockKey bj)
    (hafter : ∀ b ∈ blocks2, blockKey b ≠ blockKey bj) :
    ∃ d, find_yields lines fuel = .dict d ∧
      lookupDict (blockKey bj) d = some (hl :: bj) ∧
      d.length < (blocks1 ++ bj :: blocks2).length := by
  subst hsec
  have hpg : pyGet (hl :: (blocks1 ++ bj :: blocks2).flatten) 0 = some hl := by
    unfold pyGet
    rw [if_pos (by omega)]
    rfl
  have hrun : find_yields lines fuel
      = .dict ((blocks1 ++ bj :: blocks2).foldl
          (fun a b => insertOverwrite (blockKey b) (hl :: b) a) []) := by
    simp only [find_yields, hfs, hn]
    rw [if_neg hn0]
    simp only [hpg]
    exact splitLoop_join hl (blocks1 ++ bj :: blocks2) _ fuel 2 [] (by omega)
      (by simp) hwf hfuel
  refine ⟨_, hrun, ?_, ?_⟩
  · rw [List.foldl_append, List.foldl_cons]
    rw [lookupDict_foldl_insertOverwrite_ne hl blocks2 _ hafter]
    rw [lookupDict_insertOverwrite_self]
  · obtain ⟨b0, hb0, hkey0⟩ := hdup
    have hmem : blockKey bj ∈
        (blocks1.foldl (fun a b => insertOverwrite (blockKey b) (hl :: b) a)
          ([] : YieldDict)).map Prod.fst := by
      rw [← hkey0]
      exact key_mem_keys_foldl_insertOverwrite hl blocks1 [] b0 hb0
    rw [List.foldl_append, List.foldl_cons]
    have h1 : (blocks1.foldl (fun a b => insertOverwrite (blockKey b) (hl :: b) a)
        ([] : YieldDict)).length ≤ blocks1.length := by
      have := length_foldl_insertOverwrite_le hl blocks1 []
      simpa using this
    have h2 : (insertOverwrite (blockKey bj) (hl :: bj)
        (blocks1.foldl (fun a b => insertOverwrite (blockKey b) (hl :: b) a)
          ([] : YieldDict))).length
        = (blocks1.foldl (fun a b => insertOverwrite (blockKey b) (hl :: b) a)
          ([] : YieldDict)).length :=
      length_insertOverwrite_of_mem _ _ hmem
    have h3 := length_foldl_insertOverwrite_le hl blocks2
      (insertOverwrite (blockKey bj) (hl :: bj)
        (blocks1.foldl (fun a b => insertOverwrite (blockKey b) (hl :: b) a) []))
    simp only [List.length_append, List.length_cons]
    omega

/-- C10, witness: the duplicate-key tape — the key `41091` maps to
the block of the *last* subsection, and the map has 1 < 2 entries. -/
theorem find_yields_duplicate_key_overwrites_witness :
    ∃ d, find_yields [t1l0, t1l1, t1l2, t1l3, t1l4, t1l5, t1l6] 10 = .dict d ∧
      lookupDict (blockKey [t1l4, t1l5, t1l6]) d
        = some (t1l0 :: [t1l4, t1l5, t1l6]) ∧
      d.length < ([[t1l1, t1l2, t1l3]] ++ [t1l4, t1l5, t1l6] :: ([] : List (List Line))).length :=
  find_yields_duplicate_key_overwrites
    [t1l0, t1l1, t1l2, t1l3, t1l4, t1l5, t1l6]
    [t1l0, t1l1, t1l2, t1l3, t1l4, t1l5, t1l6]
    t1l0 [[t1l1, t1l2, t1l3]] [] [t1l4, t1l5, t1l6] 2 10
    (by decide) (by decide) (by decide) (by decide) (by decide) (by decide)
    ⟨[t1l1, t1l2, t1l3], by decide, by decide⟩ (by simp)

end ENDF6
